import Mathlib

/-!
# quartet_sim: the per-seed search of `quartet.cpp`

A shallow embedding of `src/quartet.cpp`.  Machine integers are natural
numbers reduced modulo their width where the source can wrap; `std::array`
and `std::list` are Lean lists; a read outside an array and a loop that
runs out of fuel give `none`.
-/

namespace Quartet

/-! ## Data model -/

/-- The search node `struct QuartetState` (lines 17-28). -/
structure QuartetState where
  /-- A `uint16_t`. -/
  RngState : Nat
  /-- A `uint8_t`. -/
  FaceType : Nat
  /-- A `uint8_t`: bitwise flags for corner types. -/
  FaceProgress : Nat
  /-- A `uint8_t`: lower 4 bits corner type, upper 4 bits face type. -/
  NextFaceState : Nat
  /-- A `uint8_t`. -/
  TimerSpeed : Nat
  /-- A `uint16_t`. -/
  TurnCount : Nat
  /-- A `uint16_t`: can be over 255. -/
  TurnDelay0 : Nat
  /-- The array `uint8_t TurnDelays[2863]`. -/
  TurnDelays : List Nat
  /-- A `uint32_t`. -/
  TotalDelay : Nat
  deriving DecidableEq

/-- The value-initialised node `QuartetState initialState{}` (line 224). -/
def zeroState : QuartetState :=
  { RngState := 0, FaceType := 0, FaceProgress := 0, NextFaceState := 0, TimerSpeed := 0,
    TurnCount := 0, TurnDelay0 := 0, TurnDelays := List.replicate 2863 0, TotalDelay := 0 }

/-- A read of a `std::array` at an index: `none` outside the array. -/
def arrayRead : Nat → List Nat → Option Nat
  | 0, table => table.head?
  | i + 1, table => arrayRead i table.tail

/-! ## Timer-delay table (lines 36-76) -/

/-- The `while (true)` loop of `CreateTimerDelayTable` (lines 48-62) for the speed `i`,
on the table `timerDelayTable`.  `timer` is a `uint8_t`, `subTimer` a `uint16_t`,
the table entries are `uint8_t`. -/
def timerCountdown (i : Nat) : Nat → Nat → Nat → List Nat → Option (List Nat)
  | 0, _, _, _ => none
  | fuel + 1, timer, subTimer, timerDelayTable =>
    let subTimer := (subTimer + i) % 65536
    if subTimer ≥ 0x100 then
      let subTimer := subTimer - 0x100
      let timer := (timer + 255) % 256
      if timer = 0 then
        some timerDelayTable
      else
        timerCountdown i fuel timer subTimer
          (timerDelayTable.set i ((timerDelayTable.getD i 0 + 1) % 256))
    else
      timerCountdown i fuel timer subTimer
        (timerDelayTable.set i ((timerDelayTable.getD i 0 + 1) % 256))

/-- One pass of the body of the `for` loop of `CreateTimerDelayTable` (lines 41-65).
The fuel `0x14 * 0x100` covers every run of the countdown for a speed `i ≥ 1`:
each pass adds `i` to `subTimer`, so it overflows `0x14` times within that many passes. -/
def timerTableEntry (timerDelayTable : List Nat) (i : Nat) : Option (List Nat) :=
  if i &&& 1 ≠ 0 then
    some timerDelayTable
  else
    match timerCountdown i (0x14 * 0x100) 0x14 0 timerDelayTable with
    | none => none
    | some t => some (t.set i ((t.getD i 0 + 255) % 256))

/-- The body of `CreateTimerDelayTable` run for the speeds of `speeds` in turn. -/
def timerTableLoop : List Nat → List Nat → Option (List Nat)
  | [], timerDelayTable => some timerDelayTable
  | i :: speeds, timerDelayTable =>
    match timerTableEntry timerDelayTable i with
    | none => none
    | some t => timerTableLoop speeds t

/-- `CreateTimerDelayTable` (lines 36-69): a zeroed `std::array<uint8_t, 0x81>`,
filled for `i = 0x40, ..., 0x80`. -/
def CreateTimerDelayTable : Option (List Nat) :=
  timerTableLoop (List.range' 0x40 0x41) (List.replicate 0x81 0)

/-- The global `TimerDelayTable` (line 71). -/
def TimerDelayTable : List Nat :=
  CreateTimerDelayTable.getD []

/-- `GetTimerDelay` (lines 73-76); `none` when the read is outside the table. -/
def GetTimerDelay (quartet : QuartetState) : Option Nat :=
  arrayRead quartet.TimerSpeed TimerDelayTable

/-! ## Generator model (lines 113-171) -/

/-- One step of the generator, as written in the table constructors (lines 125-126 and
140-141): `xorVal = (rngState & 1) ? 0xB400 : 0; rngState = (rngState >> 1) ^ xorVal`,
stored back into a `uint16_t`. -/
def rngStep (rngState : Nat) : Nat :=
  let xorVal := if rngState &&& 1 ≠ 0 then 0xB400 else 0
  ((rngState >>> 1) ^^^ xorVal) % 65536

/-- The `for` loop of `CreateRngTable` (lines 119-127), with `n` passes left. -/
def rngTableLoop : Nat → Nat → Nat → List Nat → List Nat
  | 0, _, _, rngTable => rngTable
  | n + 1, i, rngState, rngTable =>
    rngTableLoop n (i + 1) (rngStep rngState) (rngTable.set i rngState)

/-- `CreateRngTable` (lines 113-130): a zeroed `std::array<uint16_t, 0xFFFF>`. -/
def CreateRngTable : List Nat :=
  rngTableLoop 0xFFFF 0 1 (List.replicate 0xFFFF 0)

/-- The `for` loop of `CreateReverseRngTable` (lines 137-142), with `n` passes left. -/
def reverseRngTableLoop : Nat → Nat → Nat → List Nat → List Nat
  | 0, _, _, reverseRngTable => reverseRngTable
  | n + 1, i, rngState, reverseRngTable =>
    reverseRngTableLoop n (i + 1) (rngStep rngState) (reverseRngTable.set rngState i)

/-- `CreateReverseRngTable` (lines 132-145): a zeroed `std::array<uint16_t, 0x10000>`. -/
def CreateReverseRngTable : List Nat :=
  reverseRngTableLoop 0xFFFF 0 1 (List.replicate 0x10000 0)

/-- The global `RngTable` (line 147). -/
@[irreducible]
def RngTable : List Nat := CreateRngTable

/-- The global `ReverseRngTable` (line 148). -/
@[irreducible]
def ReverseRngTable : List Nat := CreateReverseRngTable

/-- The index `rngIndex` that `AdvanceRng` reads `RngTable` at (lines 152-157): a
`uint32_t`; `none` when the read of `ReverseRngTable` is outside the table. -/
def advanceIndex (rngState iterations : Nat) : Option Nat :=
  match arrayRead rngState ReverseRngTable with
  | none => none
  | some rngIndex =>
    let rngIndex := (rngIndex + iterations) % 4294967296
    if rngIndex ≥ 0xFFFF then some (rngIndex - 0xFFFF) else some rngIndex

/-- `AdvanceRng` (lines 150-161); `none` when a read is outside a table. -/
def AdvanceRng (quartet : QuartetState) (iterations : Nat) : Option QuartetState :=
  match advanceIndex quartet.RngState iterations with
  | none => none
  | some rngIndex =>
    match arrayRead rngIndex RngTable with
    | none => none
    | some rngState => some { quartet with RngState := rngState }

/-- `FindNextFace` (lines 163-171). -/
def FindNextFace (quartet : QuartetState) : Option QuartetState :=
  match AdvanceRng quartet 1 with
  | none => none
  | some quartet =>
    let quartet := { quartet with NextFaceState := ((quartet.RngState >>> 8) % 256) &&& 0x33 }
    AdvanceRng quartet 1

/-! ## Pruning policy (lines 173-192) -/

/-- `HitDelayLimit` (lines 173-178). -/
def HitDelayLimit (branch : QuartetState) : Bool :=
  decide (branch.TotalDelay > 6884)

/-- `ShouldCullBranch` (lines 180-187); `nextFaceType` and `nextFaceCorner` are `uint8_t`. -/
def ShouldCullBranch (branch : QuartetState) : Bool :=
  let nextFaceType := (branch.NextFaceState >>> 4) % 256
  let nextFaceCorner := (1 <<< (branch.NextFaceState &&& 0xF)) % 256
  decide (nextFaceType ≠ branch.FaceType) || decide (nextFaceCorner &&& branch.FaceProgress ≠ 0)
    || HitDelayLimit branch

/-- `CullBranches` (lines 189-192): `std::erase_if(branches, ShouldCullBranch)`. -/
def CullBranches (branches : List QuartetState) : List QuartetState :=
  branches.filter (fun branch => !ShouldCullBranch branch)

/-! ## Collection manager (lines 194-217) -/

/-- `CompareBranches` (lines 194-197). -/
def CompareBranches (branchA branchB : QuartetState) : Bool :=
  decide (branchA.TotalDelay < branchB.TotalDelay)

/-- `std::list::sort(comp)`: the library's stable sort, as an insertion sort that keeps
elements that do not compare in their order. -/
def listSort (comp : QuartetState → QuartetState → Bool) (l : List QuartetState) :
    List QuartetState :=
  l.insertionSort (fun a b => comp b a = false)

/-- `std::list::merge(other, comp)`: on elements that do not compare, the ones of the
receiver come first. -/
def listMerge (comp : QuartetState → QuartetState → Bool) (to_ from_ : List QuartetState) :
    List QuartetState :=
  List.merge to_ from_ (fun a b => !comp b a)

/-- `MergeBranches` (lines 199-204), returning the new `to`; `from` is left empty. -/
def MergeBranches (to_ from_ : List QuartetState) : List QuartetState :=
  listMerge CompareBranches to_ (listSort CompareBranches from_)

/-- The predicate of `RemoveDuplicates` (lines 209-216). -/
def sameBranch (branchA branchB : QuartetState) : Bool :=
  decide (branchA.RngState = branchB.RngState) &&
    decide (branchA.FaceType = branchB.FaceType) &&
    decide (branchA.FaceProgress = branchB.FaceProgress) &&
    decide (branchA.NextFaceState = branchB.NextFaceState) &&
    decide (branchA.TotalDelay = branchB.TotalDelay)

/-- `std::list::unique(pred)` on the list `kept :: rest`: an element is erased when
`pred` holds of the last kept element and it. -/
def listUniqueFrom (pred : QuartetState → QuartetState → Bool) :
    QuartetState → List QuartetState → List QuartetState
  | kept, [] => [kept]
  | kept, next :: rest =>
    if pred kept next then listUniqueFrom pred kept rest
    else kept :: listUniqueFrom pred next rest

/-- `std::list::unique(pred)`. -/
def listUnique (pred : QuartetState → QuartetState → Bool) :
    List QuartetState → List QuartetState
  | [] => []
  | first :: rest => listUniqueFrom pred first rest

/-- `RemoveDuplicates` (lines 206-217). -/
def RemoveDuplicates (branches : List QuartetState) : List QuartetState :=
  listUnique sameBranch branches

/-! ## Seed search driver (lines 219-396) -/

/-- `std::byteswap` on a `uint16_t`. -/
def byteswap (x : Nat) : Nat :=
  (x % 256) * 256 + (x / 256) % 256

/-- The node `initialState` after lines 224-237: the seed is loaded, the first face is
rolled and becomes the required face, and the generator is advanced `5 + 10` times. -/
def initialNode (seed : Nat) : Option QuartetState :=
  let initialState := { zeroState with RngState := byteswap seed, TimerSpeed := 0x40 }
  match FindNextFace initialState with
  | none => none
  | some initialState =>
    let initialState :=
      { initialState with FaceType := (initialState.NextFaceState >>> 4) % 256 }
    let initialState :=
      { initialState with
        FaceProgress := (1 <<< (initialState.NextFaceState &&& 0xF)) % 256 }
    AdvanceRng initialState (5 + 10)

/-- The loop `for (uint16_t i = 1; i <= 260; i++)` of lines 243-249, with `n` passes left. -/
def firstTurnLoop : Nat → Nat → QuartetState → List QuartetState → Option (List QuartetState)
  | 0, _, _, pendingBranches => some pendingBranches
  | n + 1, i, initialState, pendingBranches =>
    match AdvanceRng initialState 1 with
    | none => none
    | some initialState =>
      let initialState := { initialState with TurnDelay0 := i, TotalDelay := i }
      firstTurnLoop n (i + 1) initialState (pendingBranches ++ [initialState])

/-- The candidate set of turn 0 before the rolls (lines 239-249): `initialState` as it is,
then one copy for each pass of the loop. -/
def firstTurnCandidates (seed : Nat) : Option (List QuartetState) :=
  match initialNode seed with
  | none => none
  | some initialState => firstTurnLoop 260 1 initialState [initialState]

/-- The loop of lines 251-254: `FindNextFace` on every pending branch. -/
def findNextFaces : List QuartetState → Option (List QuartetState)
  | [] => some []
  | pendingBranch :: rest =>
    match FindNextFace pendingBranch with
    | none => none
    | some rolled =>
      match findNextFaces rest with
      | none => none
      | some others => some (rolled :: others)

/-- The body of the loop of lines 259-263. -/
def firstTurnUpdate (branch : QuartetState) : QuartetState :=
  { branch with
    FaceProgress := (branch.FaceProgress ||| (1 <<< (branch.NextFaceState &&& 0xF))) % 256
    TurnCount := (branch.TurnCount + 1) % 65536 }

/-- Turn 0 (lines 224-263): the live set `branches` when the main loop starts. -/
def firstTurn (seed : Nat) : Option (List QuartetState) :=
  match firstTurnCandidates seed with
  | none => none
  | some pendingBranches =>
    match findNextFaces pendingBranches with
    | none => none
    | some pendingBranches =>
      some ((MergeBranches [] (CullBranches pendingBranches)).map firstTurnUpdate)

/-- The `switch (i & 3)` of lines 284-304: the branch with its generator advanced and the
`uint8_t delayLimit`.  The `default` case is unreachable in the source. -/
def turnSetup (i : Nat) (branch : QuartetState) : Option (QuartetState × Nat) :=
  match i &&& 3 with
  | 0 =>
    match AdvanceRng branch (14 + 1 + 16 + (if i ≤ 12 then 101 else 100)) with
    | none => none
    | some branch =>
      match GetTimerDelay branch with
      | none => none
      | some timerDelay => some (branch, (timerDelay + 255) % 256)
  | 1 =>
    match AdvanceRng branch (14 + 16) with
    | none => none
    | some branch =>
      match GetTimerDelay branch with
      | none => none
      | some timerDelay => some (branch, timerDelay)
  | 2 =>
    match AdvanceRng branch (14 + 1 + 16) with
    | none => none
    | some branch =>
      match GetTimerDelay branch with
      | none => none
      | some timerDelay => some (branch, (timerDelay + 255) % 256)
  | 3 =>
    match AdvanceRng branch (14 + 1 + 16) with
    | none => none
    | some branch =>
      match GetTimerDelay branch with
      | none => none
      | some timerDelay => some (branch, (timerDelay + 255) % 256)
  | _ => none

/-- The cull of lines 320-335: `pendingBranches` after the child `pendingBranch` has been
tested. -/
def pushChild (selectingNextNewFace : Bool) (pendingBranches : List QuartetState)
    (pendingBranch : QuartetState) : List QuartetState :=
  if selectingNextNewFace then
    if !HitDelayLimit pendingBranch then pendingBranches ++ [pendingBranch]
    else pendingBranches
  else
    if !ShouldCullBranch pendingBranch then pendingBranches ++ [pendingBranch]
    else pendingBranches

/-- The loop `for (uint8_t j = 0; j <= delayLimit; j++)` of lines 306-338, from the test
of its condition at `j`; `none` when the fuel runs out. -/
def expandLoop (i : Nat) (selectingNextNewFace : Bool) (delayLimit : Nat) :
    Nat → Nat → QuartetState → List QuartetState → Option (List QuartetState)
  | 0, _, _, _ => none
  | fuel + 1, j, branch, pendingBranches =>
    if j ≤ delayLimit then
      let pendingBranch :=
        { branch with
          TurnDelays := branch.TurnDelays.set i j
          TotalDelay := (branch.TotalDelay + j) % 4294967296 }
      match FindNextFace pendingBranch with
      | none => none
      | some pendingBranch =>
        let pendingBranches := pushChild selectingNextNewFace pendingBranches pendingBranch
        match AdvanceRng branch 1 with
        | none => none
        | some branch =>
          expandLoop i selectingNextNewFace delayLimit fuel ((j + 1) % 256) branch
            pendingBranches
    else
      some pendingBranches

/-- The body of the `while` loop of lines 274-341 for one parent `branch`.  The 8-bit
counter `j` takes at most 256 values, so a run of the inner loop that ends does so
within 257 tests of its condition. -/
def expandBranch (i : Nat) (branch : QuartetState) (pendingBranches : List QuartetState) :
    Option (List QuartetState) :=
  match turnSetup i branch with
  | none => none
  | some (branch, delayLimit) =>
    expandLoop i (decide (i &&& 3 = 3)) delayLimit 257 0 branch pendingBranches

/-- The `while` loop of lines 273-341: every live branch is expanded and erased. -/
def expandBranches (i : Nat) :
    List QuartetState → List QuartetState → Option (List QuartetState)
  | [], pendingBranches => some pendingBranches
  | branch :: rest, pendingBranches =>
    match expandBranch i branch pendingBranches with
    | none => none
    | some pendingBranches => expandBranches i rest pendingBranches

/-- The post-turn bookkeeping: the body of the loop of lines 349-370. -/
def postTurn (i : Nat) (branch : QuartetState) : QuartetState :=
  let branch :=
    if i &&& 3 = 0 then { branch with TimerSpeed := (branch.TimerSpeed + 250) % 256 }
    else branch
  let branch :=
    if i &&& 3 = 3 then
      { branch with FaceType := (branch.NextFaceState >>> 4) % 256, FaceProgress := 0 }
    else branch
  let branch :=
    { branch with
      FaceProgress := (branch.FaceProgress ||| (1 <<< (branch.NextFaceState &&& 0xF))) % 256
      TurnCount := (branch.TurnCount + 1) % 65536 }
  if branch.TimerSpeed < 0x80 then { branch with TimerSpeed := (branch.TimerSpeed + 2) % 256 }
  else branch

/-- One pass of the main loop (lines 266-370) for turn `i`: `branches` is emptied by the
expansion, so the merge is into the empty list, and `pendingBranches` is empty again
after it. -/
def searchTurn (i : Nat) (branches : List QuartetState) : Option (List QuartetState) :=
  match expandBranches i branches [] with
  | none => none
  | some pendingBranches =>
    some ((RemoveDuplicates (MergeBranches [] pendingBranches)).map (postTurn i))

/-- The main loop `for (uint16_t i = 1; i <= 2862; i++)` (lines 265-371), with `n` passes
left. -/
def searchLoop : Nat → Nat → List QuartetState → Option (List QuartetState)
  | 0, _, branches => some branches
  | n + 1, i, branches =>
    match searchTurn i branches with
    | none => none
    | some branches => searchLoop n (i + 1) branches

/-- The live set `branches` after turn `n`: turn 0 and `n` passes of the main loop. -/
def liveAfter (seed n : Nat) : Option (List QuartetState) :=
  match firstTurn seed with
  | none => none
  | some branches => searchLoop n 1 branches

/-- The values that lines 382-388 write for a branch: `TurnDelay0`, then
`TurnDelays[1..2862]`. -/
def writtenDelays (shortestBranch : QuartetState) : List Nat :=
  shortestBranch.TurnDelay0 ::
    (List.range' 1 2862).map (fun i => shortestBranch.TurnDelays.getD i 0)

/-- The `uint16_t totalDelay` that lines 383-390 accumulate and write. -/
def writtenTotal (shortestBranch : QuartetState) : Nat :=
  (List.range' 1 2862).foldl
    (fun totalDelay i => (totalDelay + shortestBranch.TurnDelays.getD i 0) % 65536)
    (shortestBranch.TurnDelay0 % 65536)

/-- `SearchSeed` (lines 219-396): the record written for the seed (the delays and the
total), `some none` when the live set ends empty. -/
def SearchSeed (seed : Nat) : Option (Option (List Nat × Nat)) :=
  match liveAfter seed 2862 with
  | none => none
  | some branches =>
    some (branches.head?.map (fun shortestBranch =>
      (writtenDelays shortestBranch, writtenTotal shortestBranch)))

/-! ## The turn rules on one path

The rules of a turn on a single path with a given delay, with the generator advanced by
its one-step rule: what the claims about schedules compare the search with. -/

/-- The generator state after `k` steps of the one-step rule. -/
def rngAdvance (k rngState : Nat) : Nat :=
  rngStep^[k] rngState

/-- The phase tick count of turn `i`: the generator steps before the first input. -/
def phaseTicks (i : Nat) : Nat :=
  if i % 4 = 1 then 30
  else if i % 4 = 0 then (if i ≤ 12 then 132 else 131)
  else 31

/-- The delay limit of turn `i` for a delay budget: the budget on a new face, the budget
minus one otherwise. -/
def phaseDelayLimit (i budget : Nat) : Nat :=
  if i % 4 = 1 then budget else budget - 1

/-- The face rolled from a generator state: the high byte, masked with `0x33`. -/
def rolledFace (rngState : Nat) : Nat :=
  ((rngState >>> 8) % 256) &&& 0x33

/-- The candidate of turn `i` for the parent `p` and the delay `j`: `p` with the delay
recorded and added (a 32-bit sum), the face rolled after `phaseTicks i + j + 1` steps and
the generator `phaseTicks i + j + 2` steps on. -/
def candidate (i : Nat) (p : QuartetState) (j : Nat) : QuartetState :=
  { p with
    RngState := rngAdvance (phaseTicks i + j + 2) p.RngState
    NextFaceState := rolledFace (rngAdvance (phaseTicks i + j + 1) p.RngState)
    TurnDelays := p.TurnDelays.set i j
    TotalDelay := (p.TotalDelay + j) % 4294967296 }

/-- What the expander does for the parent `p` in turn `i`, as the delays `0..L` in ascending
order: the timer read succeeds, and the pending set receives, through the cull of the
turn, the candidates of `j = 0, ..., L` in this order, `L` being the delay limit of the
phase for the delay budget of `p`. -/
def ExpanderSpec (i : Nat) (p : QuartetState) : Prop :=
  ∃ budget, GetTimerDelay p = some budget ∧
    ∀ pendingBranches, expandBranch i p pendingBranches =
      some ((List.range (phaseDelayLimit i budget + 1)).foldl
        (fun pending j => pushChild (decide (i % 4 = 3)) pending (candidate i p j))
        pendingBranches)

/-- The raw face rule: the rolled face has the required type and a fresh corner. -/
def faceAccepted (c : QuartetState) : Prop :=
  c.NextFaceState >>> 4 = c.FaceType ∧ (1 <<< (c.NextFaceState &&& 0xF)) &&& c.FaceProgress = 0

instance (c : QuartetState) : Decidable (faceAccepted c) := by
  unfold faceAccepted; infer_instance

/-- The raw rule of turn `i` for a child: within the cutoff, and the face rule unless the
turn is a phase-3 turn. -/
def childKept (i : Nat) (c : QuartetState) : Prop :=
  c.TotalDelay ≤ 6884 ∧ (i % 4 = 3 ∨ faceAccepted c)

instance (i : Nat) (c : QuartetState) : Decidable (childKept i c) := by
  unfold childKept; infer_instance

/-- The candidate of turn 0 for the first-turn delay `d0`: the first face is rolled and
required, the generator runs `5 + 10 + d0` steps and the next face is rolled. -/
def firstCandidate (seed d0 : Nat) : QuartetState :=
  { zeroState with
    RngState := rngAdvance (2 + (5 + 10) + d0 + 2) (byteswap seed)
    FaceType := rolledFace (rngAdvance 1 (byteswap seed)) >>> 4
    FaceProgress := 1 <<< (rolledFace (rngAdvance 1 (byteswap seed)) &&& 0xF)
    NextFaceState := rolledFace (rngAdvance (2 + (5 + 10) + d0 + 1) (byteswap seed))
    TimerSpeed := 0x40
    TurnDelay0 := d0
    TotalDelay := d0 }

/-- Turn 0 on one path with first-turn delay `d0`: the delay must be one the driver
enumerates (at most 260, the unmoved first push included) and the rolled face must be
accepted. -/
def replayFirst (seed d0 : Nat) : Option QuartetState :=
  if d0 ≤ 260 ∧ (firstCandidate seed d0).TotalDelay ≤ 6884 ∧ faceAccepted (firstCandidate seed d0)
  then some (firstTurnUpdate (firstCandidate seed d0)) else none

/-- Turn `i ≥ 1` on one path with delay `d`, from the node `p` of the turn before: the
delay must lie in the legal range of the turn and the child must pass the raw rule. -/
def replayTurn (i d : Nat) (p : QuartetState) : Option QuartetState :=
  match GetTimerDelay p with
  | none => none
  | some budget =>
    if d ≤ phaseDelayLimit i budget ∧ childKept i (candidate i p d) then
      some (postTurn i (candidate i p d))
    else none

/-- The node of a schedule `d` (the delay of every turn) after turn `n`, `none` when a
delay is outside its range or a check fails on the way. -/
def replay (seed : Nat) (d : Nat → Nat) : Nat → Option QuartetState
  | 0 => replayFirst seed (d 0)
  | n + 1 =>
    match replay seed d n with
    | none => none
    | some p => replayTurn (n + 1) (d (n + 1)) p

/-- The delays a node records: `TurnDelay0` for turn 0, `TurnDelays[i]` for turn `i`. -/
def recordedDelays (node : QuartetState) (i : Nat) : Nat :=
  if i = 0 then node.TurnDelay0 else node.TurnDelays.getD i 0

/-- The total delay of a schedule over the turns `0..n`. -/
def scheduleTotal (d : Nat → Nat) (n : Nat) : Nat :=
  ((List.range (n + 1)).map d).sum

/-! ## Invariants, evaluators and sample nodes used by the theorems -/

/-- The timer speed `v(i)` after the bookkeeping of turn `i`. -/
def speedAfter : Nat → Nat
  | 0 => 0x40
  | i + 1 =>
    let w := if (i + 1) % 4 = 0 then speedAfter i - 6 else speedAfter i
    if w < 0x80 then w + 2 else w

/-- A check that the `n` states from `s` on avoid 0 and 1 and the next one is 1, forcing
each state before the next step. -/
def checkPeriod : Nat → Nat → Bool
  | 0, s => s == 1
  | n + 1, s =>
    match s with
    | 0 => false
    | 1 => false
    | m + 2 => checkPeriod n (rngStep (m + 2))

/-- The node after `AdvanceRng` with one iteration has been applied `k` times. -/
def advanceTimes : Nat → QuartetState → Option QuartetState
  | 0, quartet => some quartet
  | k + 1, quartet =>
    match AdvanceRng quartet 1 with
    | none => none
    | some quartet => advanceTimes k quartet

/-- The node with generator state 1 and every other field zero. -/
def oneState : QuartetState :=
  { zeroState with RngState := 1 }

/-- The countdown of `timerCountdown` on the one table entry it changes: `count` is
`timerDelayTable[i]`. -/
def countdownCount (i : Nat) : Nat → Nat → Nat → Nat → Option Nat
  | 0, _, _, _ => none
  | fuel + 1, timer, subTimer, count =>
    let subTimer := (subTimer + i) % 65536
    if subTimer ≥ 0x100 then
      let subTimer := subTimer - 0x100
      let timer := (timer + 255) % 256
      if timer = 0 then
        some count
      else
        countdownCount i fuel timer subTimer ((count + 1) % 256)
    else
      countdownCount i fuel timer subTimer ((count + 1) % 256)

/-- The pass `timerTableEntry` through `countdownCount`. -/
def timerTableEntryCount (timerDelayTable : List Nat) (i : Nat) : Option (List Nat) :=
  if i &&& 1 ≠ 0 then
    some timerDelayTable
  else
    match countdownCount i (0x14 * 0x100) 0x14 0 (timerDelayTable.getD i 0) with
    | none => none
    | some count => some (timerDelayTable.set i ((count + 255) % 256))

/-- The loop `timerTableLoop` through `countdownCount`. -/
def timerTableLoopCount : List Nat → List Nat → Option (List Nat)
  | [], timerDelayTable => some timerDelayTable
  | i :: speeds, timerDelayTable =>
    match timerTableEntryCount timerDelayTable i with
    | none => none
    | some t => timerTableLoopCount speeds t

/-- No two nodes at different positions of a list agree on all of generator state, face
type, face progress, next-face state and total delay. -/
def NoTwoAgree (branches : List QuartetState) : Prop :=
  ∀ (i j : Nat) (a b : QuartetState), i ≠ j → branches[i]? = some a → branches[j]? = some b →
    sameBranch a b = false

/-- A node of generator state 1 and face type `faceType`, every other field zero. -/
def typedState (faceType : Nat) : QuartetState :=
  { zeroState with RngState := 1, FaceType := faceType }

/-- A node the search holds after turn `i`: a non-zero 16-bit generator state, the timer
speed of the turn, a total delay within the cutoff, 8-bit face fields and a full delay
array. -/
def NodeOK (i : Nat) (q : QuartetState) : Prop :=
  q.RngState ≠ 0 ∧ q.RngState < 65536 ∧ q.TimerSpeed = speedAfter i ∧ q.TotalDelay ≤ 6884 ∧
    q.FaceType < 256 ∧ q.FaceProgress < 256 ∧ q.TurnDelays.length = 2863

/-- The children of the parent `p` that turn `i` keeps, by the raw rule, in the order of
their delays. -/
def keptChildren (i : Nat) (p : QuartetState) : List QuartetState :=
  match GetTimerDelay p with
  | none => []
  | some budget =>
    ((List.range (phaseDelayLimit i budget + 1)).map (candidate i p)).filter
      (fun c => decide (childKept i c))

/-- A schedule `d` is valid up to turn `n`: every delay lies in the legal range of its turn,
every rolled face on turn 0 and on every later turn `i` with `i mod 4 ≠ 3` has the required
type and a fresh corner, and the running total never exceeds 6884. -/
def ValidSchedule (seed : Nat) (d : Nat → Nat) (n : Nat) : Prop :=
  (replay seed d n).isSome = true

instance (seed : Nat) (d : Nat → Nat) (n : Nat) : Decidable (ValidSchedule seed d n) := by
  unfold ValidSchedule; infer_instance

/-- A schedule with first-turn delay 7 and delay 0 on every later turn. -/
def sampleSchedule (i : Nat) : Nat :=
  if i = 0 then 7 else 0

/-! ## Definitions for the claims on turn 0, the keys, the face fields and the scheduler -/

/-- The candidate set of turn 0 just before the cull (lines 239-254): the candidates of
`firstTurnCandidates` with their next face rolled. -/
def firstTurnPending (seed : Nat) : Option (List QuartetState) :=
  match firstTurnCandidates seed with
  | none => none
  | some pendingBranches => findNextFaces pendingBranches

/-- The candidate set of turn 0 holds, in this order, exactly one candidate for each
first-turn delay of `delays`, with `TurnDelay0 = TotalDelay` the delay. -/
def FirstTurnDelays (delays : List Nat) (seed : Nat) : Prop :=
  ∃ pending, firstTurnPending seed = some pending ∧
    pending.map (fun c => c.TurnDelay0) = delays ∧ pending.map (fun c => c.TotalDelay) = delays

/-- The 5-field key of `RemoveDuplicates`: generator state, face type, face progress,
next-face state and total delay. -/
def branchKey (q : QuartetState) : Nat × Nat × Nat × Nat × Nat :=
  (q.RngState, q.FaceType, q.FaceProgress, q.NextFaceState, q.TotalDelay)

/-- The number of bits set in an 8-bit value. -/
def bitCount (x : Nat) : Nat :=
  ((List.range 8).filter (fun k => x.testBit k)).length

/-- `GetSeed` (lines 398-409) on the seeds the input still holds, one per 5-byte record:
the seed read and the input left; 0 when nothing is left to read. -/
def GetSeed (input : List Nat) : Nat × List Nat :=
  match input with
  | [] => (0, [])
  | seed :: rest => (seed, rest)

/-- The priming loop of `main` (lines 419-424), with `n` passes left: every pass reads a
seed and launches `SearchSeed` with it.  `launched` is the sequence of launched seeds. -/
def primeWorkers : Nat → List Nat → List Nat → List Nat × List Nat
  | 0, input, launched => (input, launched)
  | n + 1, input, launched =>
    primeWorkers n (GetSeed input).2 (launched ++ [(GetSeed input).1])

/-- The dispatch loop of `main` (lines 426-440): it ends on the seed 0, and launches
`SearchSeed` with any other seed once a permit is acquired; `none` when the fuel runs
out. -/
def dispatchLoop : Nat → List Nat → List Nat → Option (List Nat)
  | 0, _, _ => none
  | fuel + 1, input, launched =>
    if (GetSeed input).1 = 0 then some launched
    else dispatchLoop fuel (GetSeed input).2 (launched ++ [(GetSeed input).1])

/-- The sequence of seeds `main` (lines 411-450) launches `SearchSeed` with, for
`numThreads` workers and an input of seeds.  Every pass of the dispatch loop reads a seed,
so a run on an input of `n` seeds ends within `n + 1` passes. -/
def mainLaunches (numThreads : Nat) (input : List Nat) : Option (List Nat) :=
  dispatchLoop ((primeWorkers numThreads input []).1.length + 1)
    (primeWorkers numThreads input []).1 (primeWorkers numThreads input []).2

/-! # Theorems -/

/-! ## The generator has period 65535 -/

theorem rngStep_lt (s : Nat) : rngStep s < 65536 :=
  Nat.mod_lt _ (by norm_num)

theorem rngStep_zero : rngStep 0 = 0 := by decide

theorem rngAdvance_zero (s : Nat) : rngAdvance 0 s = s := rfl

theorem rngAdvance_succ (k s : Nat) : rngAdvance (k + 1) s = rngAdvance k (rngStep s) := rfl

theorem rngAdvance_succ_outer (k s : Nat) : rngAdvance (k + 1) s = rngStep (rngAdvance k s) :=
  Function.iterate_succ_apply' rngStep k s

theorem rngAdvance_add (a b s : Nat) : rngAdvance (a + b) s = rngAdvance a (rngAdvance b s) :=
  Function.iterate_add_apply rngStep a b s

theorem rngAdvance_of_zero (k : Nat) : rngAdvance k 0 = 0 := by
  induction k with
  | zero => rfl
  | succ k ih => rw [rngAdvance_succ, rngStep_zero, ih]

theorem checkPeriod_spec : ∀ (n s : Nat), checkPeriod n s = true →
    (∀ k, k < n → rngAdvance k s ≠ 0 ∧ rngAdvance k s ≠ 1) ∧ rngAdvance n s = 1 := by
  intro n
  induction n with
  | zero =>
    intro s h
    refine ⟨fun k hk => absurd hk (Nat.not_lt_zero k), ?_⟩
    simpa [checkPeriod] using h
  | succ n ih =>
    intro s h
    match s, h with
    | 0, h => simp [checkPeriod] at h
    | 1, h => simp [checkPeriod] at h
    | m + 2, h =>
      have h2 : checkPeriod n (rngStep (m + 2)) = true := by simpa [checkPeriod] using h
      obtain ⟨ha, hb⟩ := ih _ h2
      refine ⟨?_, ?_⟩
      · intro k hk
        cases k with
        | zero => exact ⟨by simp [rngAdvance_zero], by simp [rngAdvance_zero]⟩
        | succ k => rw [rngAdvance_succ]; exact ha k (by omega)
      · rw [rngAdvance_succ]; exact hb

theorem checkPeriod_one : checkPeriod 65534 (rngStep 1) = true := by decide!

theorem orbit_full : rngAdvance 65535 1 = 1 := by
  have h := (checkPeriod_spec 65534 (rngStep 1) checkPeriod_one).2
  rw [← rngAdvance_succ] at h
  exact h

theorem orbit_no_return (k : Nat) (h0 : 0 < k) (hk : k < 65535) :
    rngAdvance k 1 ≠ 0 ∧ rngAdvance k 1 ≠ 1 := by
  have h := (checkPeriod_spec 65534 (rngStep 1) checkPeriod_one).1 (k - 1) (by omega)
  rw [← rngAdvance_succ] at h
  have e : k - 1 + 1 = k := by omega
  rw [e] at h
  exact h

theorem orbit_add_period (k : Nat) : rngAdvance (k + 65535) 1 = rngAdvance k 1 := by
  rw [rngAdvance_add, orbit_full]

theorem orbit_add_mul (k q : Nat) : rngAdvance (k + 65535 * q) 1 = rngAdvance k 1 := by
  induction q with
  | zero => rfl
  | succ q ih =>
    have e : k + 65535 * (q + 1) = (k + 65535 * q) + 65535 := by ring
    rw [e, orbit_add_period, ih]

theorem orbit_mod (k : Nat) : rngAdvance k 1 = rngAdvance (k % 65535) 1 := by
  conv_lhs => rw [← Nat.mod_add_div k 65535]
  exact orbit_add_mul _ _

theorem orbit_ne_zero (k : Nat) : rngAdvance k 1 ≠ 0 := by
  rw [orbit_mod]
  rcases Nat.eq_zero_or_pos (k % 65535) with h | h
  · rw [h]; decide
  · exact (orbit_no_return _ h (Nat.mod_lt _ (by norm_num))).1

theorem orbit_lt (k : Nat) : rngAdvance k 1 < 65536 := by
  cases k with
  | zero => decide
  | succ k => rw [rngAdvance_succ_outer]; exact rngStep_lt _

theorem orbit_inj_lt (a b : Nat) (hab : a < b) (hb : b < 65535) :
    rngAdvance a 1 ≠ rngAdvance b 1 := by
  intro h
  have h2 : rngAdvance (65535 - b + a) 1 = rngAdvance (65535 - b + b) 1 := by
    rw [rngAdvance_add, rngAdvance_add (65535 - b) b, h]
  have e : 65535 - b + b = 65535 := by omega
  rw [e, orbit_full] at h2
  exact (orbit_no_return (65535 - b + a) (by omega) (by omega)).2 h2

theorem orbit_inj (a b : Nat) (ha : a < 65535) (hb : b < 65535)
    (h : rngAdvance a 1 = rngAdvance b 1) : a = b := by
  rcases Nat.lt_trichotomy a b with hlt | heq | hgt
  · exact absurd h (orbit_inj_lt a b hlt hb)
  · exact heq
  · exact absurd h.symm (orbit_inj_lt b a hgt ha)

theorem orbit_surj (s : Nat) (h0 : s ≠ 0) (hs : s < 65536) :
    ∃ k, k < 65535 ∧ rngAdvance k 1 = s := by
  have hsub : (Finset.range 65535).image (fun k => rngAdvance k 1) ⊆ Finset.Ioo 0 65536 := by
    intro x hx
    obtain ⟨k, _, rfl⟩ := Finset.mem_image.mp hx
    exact Finset.mem_Ioo.mpr ⟨Nat.pos_of_ne_zero (orbit_ne_zero k), orbit_lt k⟩
  have hcard : ((Finset.range 65535).image (fun k => rngAdvance k 1)).card = 65535 := by
    rw [Finset.card_image_of_injOn, Finset.card_range]
    intro a ha b hb hab
    exact orbit_inj a b (Finset.mem_range.mp (Finset.mem_coe.mp ha))
      (Finset.mem_range.mp (Finset.mem_coe.mp hb)) hab
  have heq := Finset.eq_of_subset_of_card_le hsub (by rw [hcard, Nat.card_Ioo])
  have hmem : s ∈ (Finset.range 65535).image (fun k => rngAdvance k 1) := by
    rw [heq]; exact Finset.mem_Ioo.mpr ⟨Nat.pos_of_ne_zero h0, hs⟩
  obtain ⟨k, hk, rfl⟩ := Finset.mem_image.mp hmem
  exact ⟨k, Finset.mem_range.mp hk, rfl⟩

/-- The generator state after `k` steps from a non-zero 16-bit state is non-zero. -/
theorem rngAdvance_ne_zero (k s : Nat) (h0 : s ≠ 0) (hs : s < 65536) : rngAdvance k s ≠ 0 := by
  obtain ⟨m, _, rfl⟩ := orbit_surj s h0 hs
  rw [← rngAdvance_add]; exact orbit_ne_zero _

theorem rngAdvance_lt (k s : Nat) (hs : s < 65536) : rngAdvance k s < 65536 := by
  cases k with
  | zero => exact hs
  | succ k => rw [rngAdvance_succ_outer]; exact rngStep_lt _

/-- The generator returns to a non-zero 16-bit state after 65535 steps. -/
theorem rngAdvance_period (s : Nat) (h0 : s ≠ 0) (hs : s < 65536) : rngAdvance 65535 s = s := by
  obtain ⟨m, _, rfl⟩ := orbit_surj s h0 hs
  rw [← rngAdvance_add, Nat.add_comm, orbit_add_period]

theorem rngAdvance_mod (k s : Nat) (h0 : s ≠ 0) (hs : s < 65536) :
    rngAdvance (k % 65535) s = rngAdvance k s := by
  obtain ⟨m, _, rfl⟩ := orbit_surj s h0 hs
  rw [← rngAdvance_add, ← rngAdvance_add, orbit_mod (k + m), orbit_mod (k % 65535 + m)]
  congr 1
  omega

theorem rngAdvance_inj (a b s : Nat) (h0 : s ≠ 0) (hs : s < 65536)
    (h : rngAdvance a s = rngAdvance b s) : a % 65535 = b % 65535 := by
  obtain ⟨m, _, rfl⟩ := orbit_surj s h0 hs
  rw [← rngAdvance_add, ← rngAdvance_add, orbit_mod (a + m), orbit_mod (b + m)] at h
  have := orbit_inj _ _ (Nat.mod_lt _ (by norm_num)) (Nat.mod_lt _ (by norm_num)) h
  omega

theorem rngTableLoop_length : ∀ (n i s : Nat) (t : List Nat),
    (rngTableLoop n i s t).length = t.length := by
  intro n
  induction n with
  | zero => intro i s t; rfl
  | succ n ih => intro i s t; simp [rngTableLoop, ih]

theorem rngTableLoop_get : ∀ (n i s : Nat) (t : List Nat) (k : Nat),
    i ≤ k → k < i + n → k < t.length →
    (rngTableLoop n i s t)[k]? = some (rngAdvance (k - i) s) := by
  intro n
  induction n with
  | zero => intro i s t k h1 h2 _; omega
  | succ n ih =>
    intro i s t k h1 h2 h3
    rw [rngTableLoop]
    rcases Nat.eq_or_lt_of_le h1 with heq | hlt
    · subst heq
      have hkeep : ∀ (m j r : Nat) (u : List Nat), i < j →
          (rngTableLoop m j r u)[i]? = u[i]? := by
        intro m
        induction m with
        | zero => intro j r u _; rfl
        | succ m ihm =>
          intro j r u hj
          rw [rngTableLoop, ihm _ _ _ (by omega), List.getElem?_set_ne (by omega)]
      rw [hkeep _ _ _ _ (by omega), List.getElem?_set_self h3]
      simp [rngAdvance_zero]
    · rw [ih (i + 1) (rngStep s) _ k (by omega) (by omega) (by simpa using h3)]
      have e : k - i = (k - (i + 1)) + 1 := by omega
      rw [e, rngAdvance_succ]

theorem RngTable_length : RngTable.length = 65535 := by
  unfold RngTable CreateRngTable
  rw [rngTableLoop_length, List.length_replicate]

/-- The forward table holds the orbit of 1. -/
theorem RngTable_get (k : Nat) (hk : k < 65535) : RngTable[k]? = some (rngAdvance k 1) := by
  unfold RngTable CreateRngTable
  rw [rngTableLoop_get _ _ _ _ k (by omega) (by omega)
    (by rw [List.length_replicate]; exact hk)]
  rfl

theorem RngTable_get_none (k : Nat) (hk : 65535 ≤ k) : RngTable[k]? = none :=
  List.getElem?_eq_none (by rw [RngTable_length]; exact hk)

theorem reverseRngTableLoop_length : ∀ (n i s : Nat) (t : List Nat),
    (reverseRngTableLoop n i s t).length = t.length := by
  intro n
  induction n with
  | zero => intro i s t; rfl
  | succ n ih => intro i s t; simp [reverseRngTableLoop, ih]

theorem reverseRngTableLoop_get : ∀ (n i : Nat) (t : List Nat),
    t.length = 65536 → i + n ≤ 65535 →
    (∀ k, k < i → t[rngAdvance k 1]? = some k) →
    ∀ k, k < i + n → (reverseRngTableLoop n i (rngAdvance i 1) t)[rngAdvance k 1]? = some k := by
  intro n
  induction n with
  | zero => intro i t _ _ h k hk; exact h k hk
  | succ n ih =>
    intro i t hlen hin h k hk
    rw [reverseRngTableLoop, ← rngAdvance_succ_outer]
    apply ih (i + 1) _ (by simpa using hlen) (by omega) _ k (by omega)
    intro j hj
    rcases Nat.eq_or_lt_of_le (Nat.le_of_lt_succ hj) with heq | hlt
    · subst heq
      exact List.getElem?_set_self (by rw [hlen]; exact orbit_lt j)
    · rw [List.getElem?_set_ne]
      · exact h j hlt
      · intro e
        have := orbit_inj i j (by omega) (by omega) e
        omega

theorem reverseRngTableLoop_keep : ∀ (n i s : Nat) (t : List Nat) (x : Nat),
    (∀ k, k < n → rngAdvance k s ≠ x) →
    (reverseRngTableLoop n i s t)[x]? = t[x]? := by
  intro n
  induction n with
  | zero => intro i s t x _; rfl
  | succ n ih =>
    intro i s t x h
    rw [reverseRngTableLoop, ih]
    · exact List.getElem?_set_ne (h 0 (by omega))
    · intro k hk
      have := h (k + 1) (by omega)
      rwa [rngAdvance_succ] at this

theorem ReverseRngTable_length : ReverseRngTable.length = 65536 := by
  unfold ReverseRngTable CreateReverseRngTable
  rw [reverseRngTableLoop_length, List.length_replicate]

/-- The reverse table maps every state of the orbit of 1 to its index. -/
theorem ReverseRngTable_get (k : Nat) (hk : k < 65535) :
    ReverseRngTable[rngAdvance k 1]? = some k := by
  unfold ReverseRngTable CreateReverseRngTable
  exact reverseRngTableLoop_get 65535 0 _ (List.length_replicate _ _) (by omega)
    (fun j hj => absurd hj (Nat.not_lt_zero j)) k (by omega)

/-- The entry of the reverse table for the state 0 is never written. -/
theorem ReverseRngTable_zero : ReverseRngTable[0]? = some 0 := by
  unfold ReverseRngTable CreateReverseRngTable
  rw [reverseRngTableLoop_keep _ _ _ _ 0 (fun k _ => orbit_ne_zero k)]
  exact List.getElem?_replicate_of_lt (by norm_num)

theorem arrayRead_eq : ∀ (i : Nat) (table : List Nat), arrayRead i table = table[i]? := by
  intro i
  induction i with
  | zero => intro table; cases table <;> simp [arrayRead]
  | succ i ih => intro table; cases table <;> simp [arrayRead, ih]

theorem RngTable_read (k : Nat) (hk : k < 65535) :
    arrayRead k RngTable = some (rngAdvance k 1) := by
  rw [arrayRead_eq]; exact RngTable_get k hk

theorem RngTable_read_none (k : Nat) (hk : 65535 ≤ k) : arrayRead k RngTable = none := by
  rw [arrayRead_eq]; exact RngTable_get_none k hk

theorem ReverseRngTable_read (k : Nat) (hk : k < 65535) :
    arrayRead (rngAdvance k 1) ReverseRngTable = some k := by
  rw [arrayRead_eq]; exact ReverseRngTable_get k hk

theorem ReverseRngTable_read_zero (s : Nat) (hs : s = 0) :
    arrayRead s ReverseRngTable = some 0 := by
  rw [arrayRead_eq, hs]; exact ReverseRngTable_zero

theorem advanceIndex_of_read (s iterations r : Nat) (h : arrayRead s ReverseRngTable = some r) :
    advanceIndex s iterations =
      some (if (r + iterations) % 4294967296 ≥ 0xFFFF then (r + iterations) % 4294967296 - 0xFFFF
        else (r + iterations) % 4294967296) := by
  unfold advanceIndex
  rw [h]
  simp only []
  split <;> rfl

theorem AdvanceRng_of_index (q : QuartetState) (iterations idx : Nat)
    (h : advanceIndex q.RngState iterations = some idx) (hidx : idx < 65535) :
    AdvanceRng q iterations = some { q with RngState := rngAdvance idx 1 } := by
  unfold AdvanceRng
  rw [h]
  simp only []
  rw [RngTable_read idx hidx]

theorem wrapIndex_spec (x : Nat) (hx : x < 131070) :
    ∃ idx, (if x % 4294967296 ≥ 0xFFFF then x % 4294967296 - 0xFFFF else x % 4294967296) = idx ∧
      idx < 65535 ∧ rngAdvance idx 1 = rngAdvance x 1 := by
  have e : x % 4294967296 = x := Nat.mod_eq_of_lt (by omega)
  by_cases hge : x ≥ 0xFFFF
  · obtain ⟨y, hy⟩ : ∃ y, x = y + 65535 := ⟨x - 65535, by omega⟩
    refine ⟨y, ?_, by omega, ?_⟩
    · rw [e, if_pos hge]; omega
    · rw [hy, orbit_add_period]
  · refine ⟨x, ?_, by omega, rfl⟩
    rw [e, if_neg hge]

theorem AdvanceRng_of_read (q : QuartetState) (iterations r : Nat)
    (h : arrayRead q.RngState ReverseRngTable = some r) (hr : r < 65535)
    (hi : iterations ≤ 65535) :
    AdvanceRng q iterations = some { q with RngState := rngAdvance (r + iterations) 1 } := by
  have h1 := advanceIndex_of_read q.RngState iterations r h
  obtain ⟨idx, e1, e2, e3⟩ := wrapIndex_spec (r + iterations) (by omega)
  rw [e1] at h1
  rw [AdvanceRng_of_index q iterations idx h1 e2, e3]

/-- On a non-zero 16-bit state and at most 65535 iterations, `AdvanceRng` reads inside both
tables and steps the generator `iterations` times. -/
theorem AdvanceRng_eq (q : QuartetState) (iterations : Nat) (h0 : q.RngState ≠ 0)
    (hs : q.RngState < 65536) (hi : iterations ≤ 65535) :
    AdvanceRng q iterations = some { q with RngState := rngAdvance iterations q.RngState } := by
  obtain ⟨m, hm, hq⟩ := orbit_surj q.RngState h0 hs
  rw [AdvanceRng_of_read q iterations m (by rw [← hq]; exact ReverseRngTable_read m hm) hm hi,
    Nat.add_comm, rngAdvance_add, hq]

/-- From the state 0 the tables behave as from the state 1. -/
theorem AdvanceRng_zero (q : QuartetState) (iterations : Nat) (h0 : q.RngState = 0)
    (hi : iterations ≤ 65535) :
    AdvanceRng q iterations = some { q with RngState := rngAdvance iterations 1 } := by
  rw [AdvanceRng_of_read q iterations 0 (ReverseRngTable_read_zero _ h0) (by omega) hi,
    Nat.zero_add]

theorem advanceTimes_eq : ∀ (k : Nat) (q : QuartetState), q.RngState ≠ 0 → q.RngState < 65536 →
    advanceTimes k q = some { q with RngState := rngAdvance k q.RngState } := by
  intro k
  induction k with
  | zero => intro q _ _; rfl
  | succ k ih =>
    intro q h0 hs
    rw [advanceTimes, AdvanceRng_eq q 1 h0 hs (by omega)]
    simp only []
    rw [ih _ (rngAdvance_ne_zero 1 _ h0 hs) (rngAdvance_lt 1 _ hs)]
    simp only [← rngAdvance_add]

/-- C3: for a non-zero 16-bit generator state and iteration counts `a`, `b` in 0..65535,
advancing by `a` and then by `b` succeeds and gives the node that advancing by
`(a + b) mod 65535` gives. -/
theorem AdvanceRng_additive (q : QuartetState) (a b : Nat) (h0 : q.RngState ≠ 0)
    (hs : q.RngState < 65536) (ha : a ≤ 65535) (hb : b ≤ 65535) :
    ∃ r, AdvanceRng q ((a + b) % 65535) = some r ∧
      (AdvanceRng q a).bind (fun q1 => AdvanceRng q1 b) = some r := by
  refine ⟨{ q with RngState := rngAdvance (a + b) q.RngState }, ?_, ?_⟩
  · rw [AdvanceRng_eq q _ h0 hs (Nat.le_of_lt (Nat.lt_of_lt_of_le (Nat.mod_lt _ (by norm_num))
      (by norm_num))), rngAdvance_mod _ _ h0 hs]
  · rw [AdvanceRng_eq q a h0 hs ha, Option.some_bind,
      AdvanceRng_eq _ b (rngAdvance_ne_zero a _ h0 hs) (rngAdvance_lt a _ hs) hb]
    simp only [← rngAdvance_add, Nat.add_comm b a]

/-- C4: from a non-zero 16-bit state, the states reached by applying `AdvanceRng` with one
iteration 1, 2, ..., 65535 times exist, are never 0, are pairwise distinct, and the
65535th is the starting state again. -/
theorem AdvanceRng_full_period (q : QuartetState) (h0 : q.RngState ≠ 0)
    (hs : q.RngState < 65536) :
    (∀ k, ∃ qk, advanceTimes k q = some qk ∧ qk.RngState ≠ 0) ∧
    (∀ j k qj qk, 1 ≤ j → j < k → k ≤ 65535 → advanceTimes j q = some qj →
      advanceTimes k q = some qk → qj.RngState ≠ qk.RngState) ∧
    advanceTimes 65535 q = some q := by
  refine ⟨?_, ?_, ?_⟩
  · intro k
    exact ⟨_, advanceTimes_eq k q h0 hs, rngAdvance_ne_zero k _ h0 hs⟩
  · intro j k qj qk hj hjk hk ej ek
    rw [advanceTimes_eq j q h0 hs] at ej
    rw [advanceTimes_eq k q h0 hs] at ek
    cases ej; cases ek
    intro h
    have := rngAdvance_inj j k _ h0 hs h
    omega
  · rw [advanceTimes_eq 65535 q h0 hs, rngAdvance_period _ h0 hs]

/-- The hypotheses of `AdvanceRng_additive` hold at the state 1 with `a = 2` and `b = 3`. -/
theorem AdvanceRng_additive_witness :
    (oneState.RngState ≠ 0 ∧ oneState.RngState < 65536 ∧ 2 ≤ 65535 ∧ 3 ≤ 65535) ∧
    ∃ r, AdvanceRng oneState ((2 + 3) % 65535) = some r ∧
      (AdvanceRng oneState 2).bind (fun q1 => AdvanceRng q1 3) = some r :=
  ⟨by decide, AdvanceRng_additive oneState 2 3 (by decide) (by decide) (by decide) (by decide)⟩

/-- The hypotheses of `AdvanceRng_full_period` hold at the state 1. -/
theorem AdvanceRng_full_period_witness :
    (oneState.RngState ≠ 0 ∧ oneState.RngState < 65536) ∧
    (∀ k, ∃ qk, advanceTimes k oneState = some qk ∧ qk.RngState ≠ 0) ∧
    (∀ j k qj qk, 1 ≤ j → j < k → k ≤ 65535 → advanceTimes j oneState = some qj →
      advanceTimes k oneState = some qk → qj.RngState ≠ qk.RngState) ∧
    advanceTimes 65535 oneState = some oneState :=
  ⟨by decide, AdvanceRng_full_period oneState (by decide) (by decide)⟩

/-! ## The timer-delay table -/

theorem set_getD_self (t : List Nat) (i : Nat) : t.set i (t.getD i 0) = t := by
  apply List.ext_getElem?
  intro k
  by_cases hk : i = k
  · subst hk
    by_cases hi : i < t.length
    · rw [List.getElem?_set_self hi, List.getD_eq_getElem?_getD, List.getElem?_eq_getElem hi]
      rfl
    · rw [List.getElem?_eq_none (by simpa using hi), List.getElem?_eq_none (by simpa using hi)]
  · rw [List.getElem?_set_ne hk]

theorem getD_set_self (t : List Nat) (i v : Nat) (hi : i < t.length) :
    (t.set i v).getD i 0 = v := by
  rw [List.getD_eq_getElem?_getD, List.getElem?_set_self hi]
  rfl

theorem timerCountdown_eq (i : Nat) : ∀ (fuel timer subTimer : Nat) (t : List Nat),
    i < t.length →
    timerCountdown i fuel timer subTimer t =
      (countdownCount i fuel timer subTimer (t.getD i 0)).map (fun count => t.set i count) := by
  intro fuel
  induction fuel with
  | zero => intro timer subTimer t _; rfl
  | succ fuel ih =>
    intro timer subTimer t hi
    rw [timerCountdown, countdownCount]
    simp only []
    split
    · split
      · simp only [Option.map_some', set_getD_self]
      · rw [ih _ _ _ (by simpa using hi), getD_set_self _ _ _ hi]
        simp only [List.set_set]
    · rw [ih _ _ _ (by simpa using hi), getD_set_self _ _ _ hi]
      simp only [List.set_set]

theorem timerTableEntry_eq (t : List Nat) (i : Nat) (hi : i < t.length) :
    timerTableEntry t i = timerTableEntryCount t i := by
  unfold timerTableEntry timerTableEntryCount
  split
  · rfl
  · rw [timerCountdown_eq i _ _ _ t hi]
    cases countdownCount i (0x14 * 0x100) 0x14 0 (t.getD i 0) with
    | none => rfl
    | some count =>
      simp only [Option.map_some']
      rw [getD_set_self _ _ _ hi, List.set_set]

theorem timerTableEntryCount_length (t t2 : List Nat) (i : Nat)
    (h : timerTableEntryCount t i = some t2) : t2.length = t.length := by
  unfold timerTableEntryCount at h
  split at h
  · cases h; rfl
  · split at h
    · cases h
    · cases h; simp

theorem timerTableLoop_eq : ∀ (speeds t : List Nat), (∀ i ∈ speeds, i < t.length) →
    timerTableLoop speeds t = timerTableLoopCount speeds t := by
  intro speeds
  induction speeds with
  | nil => intro t _; rfl
  | cons i speeds ih =>
    intro t h
    rw [timerTableLoop, timerTableLoopCount, timerTableEntry_eq t i (h i (by simp))]
    cases hc : timerTableEntryCount t i with
    | none => rfl
    | some t2 =>
      simp only []
      apply ih
      intro k hk
      rw [timerTableEntryCount_length t t2 i hc]
      exact h k (by simp [hk])

theorem timerTableLoopCount_eq :
    timerTableLoopCount (List.range' 0x40 0x41) (List.replicate 0x81 0) = some
      [0, 0, 0, 0, 0, 0, 0, 0, 0, 0, 0, 0, 0, 0, 0, 0, 0, 0, 0, 0, 0, 0, 0, 0, 0, 0, 0, 0, 0, 0,
      0, 0, 0, 0, 0, 0, 0, 0, 0, 0, 0, 0, 0, 0, 0, 0, 0, 0, 0, 0, 0, 0, 0, 0, 0, 0, 0, 0, 0, 0,
      0, 0, 0, 0, 78, 0, 76, 0, 74, 0, 72, 0, 70, 0, 68, 0, 66, 0, 64, 0, 62, 0, 61, 0, 59, 0,
      58, 0, 57, 0, 55, 0, 54, 0, 53, 0, 52, 0, 51, 0, 50, 0, 49, 0, 48, 0, 47, 0, 46, 0, 45, 0,
      44, 0, 43, 0, 43, 0, 42, 0, 41, 0, 40, 0, 40, 0, 39, 0, 38] := by
  decide!

/-- The table construction ends; its entries, for the speeds 0 to `0x80`. -/
theorem CreateTimerDelayTable_eq :
    CreateTimerDelayTable = some
      [0, 0, 0, 0, 0, 0, 0, 0, 0, 0, 0, 0, 0, 0, 0, 0, 0, 0, 0, 0, 0, 0, 0, 0, 0, 0, 0, 0, 0, 0,
      0, 0, 0, 0, 0, 0, 0, 0, 0, 0, 0, 0, 0, 0, 0, 0, 0, 0, 0, 0, 0, 0, 0, 0, 0, 0, 0, 0, 0, 0,
      0, 0, 0, 0, 78, 0, 76, 0, 74, 0, 72, 0, 70, 0, 68, 0, 66, 0, 64, 0, 62, 0, 61, 0, 59, 0,
      58, 0, 57, 0, 55, 0, 54, 0, 53, 0, 52, 0, 51, 0, 50, 0, 49, 0, 48, 0, 47, 0, 46, 0, 45, 0,
      44, 0, 43, 0, 43, 0, 42, 0, 41, 0, 40, 0, 40, 0, 39, 0, 38] :=
  (timerTableLoop_eq _ _ (by
    intro i hi
    rw [List.length_replicate]
    have := (List.mem_range'_1.mp hi).2
    omega)).trans timerTableLoopCount_eq

theorem TimerDelayTable_eq :
    TimerDelayTable =
      [0, 0, 0, 0, 0, 0, 0, 0, 0, 0, 0, 0, 0, 0, 0, 0, 0, 0, 0, 0, 0, 0, 0, 0, 0, 0, 0, 0, 0, 0,
      0, 0, 0, 0, 0, 0, 0, 0, 0, 0, 0, 0, 0, 0, 0, 0, 0, 0, 0, 0, 0, 0, 0, 0, 0, 0, 0, 0, 0, 0,
      0, 0, 0, 0, 78, 0, 76, 0, 74, 0, 72, 0, 70, 0, 68, 0, 66, 0, 64, 0, 62, 0, 61, 0, 59, 0,
      58, 0, 57, 0, 55, 0, 54, 0, 53, 0, 52, 0, 51, 0, 50, 0, 49, 0, 48, 0, 47, 0, 46, 0, 45, 0,
      44, 0, 43, 0, 43, 0, 42, 0, 41, 0, 40, 0, 40, 0, 39, 0, 38] := by
  unfold TimerDelayTable
  rw [CreateTimerDelayTable_eq]
  rfl

/-- Every entry is the closed form: `⌈5120 / s⌉ - 2` at an even speed `s` of `[0x40, 0x80]`,
0 elsewhere; a read at a higher index is outside the table. -/
theorem TimerDelayTable_read_all : ∀ s, s < 0x81 →
    arrayRead s TimerDelayTable =
      some (if 0x40 ≤ s ∧ s % 2 = 0 then (5120 + s - 1) / s - 2 else 0) := by
  rw [TimerDelayTable_eq]
  decide!

theorem TimerDelayTable_read_none (s : Nat) (hs : 0x81 ≤ s) :
    arrayRead s TimerDelayTable = none := by
  rw [arrayRead_eq, TimerDelayTable_eq]
  exact List.getElem?_eq_none (by simpa using hs)

theorem TimerDelayTable_read (s : Nat) (h1 : 0x40 ≤ s) (h2 : s ≤ 0x80) (h3 : s % 2 = 0) :
    arrayRead s TimerDelayTable = some (5119 / s - 1) := by
  rw [TimerDelayTable_read_all s (by omega), if_pos ⟨h1, h3⟩]
  have e : 5120 + s - 1 = 5119 + s := by omega
  rw [e, Nat.add_div_right _ (by omega)]
  rfl

theorem timerBudget_bounds (s : Nat) (h1 : 0x40 ≤ s) (h2 : s ≤ 0x80) :
    38 ≤ 5119 / s - 1 ∧ 5119 / s - 1 ≤ 78 := by
  have ha : 5119 / s ≤ 5119 / 0x40 := Nat.div_le_div_left h1 (by norm_num)
  have hb : 5119 / 0x80 ≤ 5119 / s := Nat.div_le_div_left h2 (by omega)
  have e1 : 5119 / 0x40 = 79 := by norm_num
  have e2 : 5119 / 0x80 = 39 := by norm_num
  omega

/-- C10: over the even timer speeds `a ≤ b` of `[0x40, 0x80]` the table entries exist and
do not increase. -/
theorem TimerDelayTable_antitone (a b : Nat) (ha : 0x40 ≤ a) (hab : a ≤ b) (hb : b ≤ 0x80)
    (hae : a % 2 = 0) (hbe : b % 2 = 0) :
    ∃ da db, arrayRead a TimerDelayTable = some da ∧ arrayRead b TimerDelayTable = some db ∧
      db ≤ da := by
  refine ⟨_, _, TimerDelayTable_read a ha (by omega) hae,
    TimerDelayTable_read b (by omega) hb hbe, ?_⟩
  have : 5119 / b ≤ 5119 / a := Nat.div_le_div_left hab (by omega)
  omega

/-- The hypotheses of `TimerDelayTable_antitone` hold at the speeds `0x40` and `0x80`. -/
theorem TimerDelayTable_antitone_witness :
    (0x40 ≤ 0x40 ∧ 0x40 ≤ 0x80 ∧ 0x80 ≤ 0x80 ∧ 0x40 % 2 = 0 ∧ 0x80 % 2 = 0) ∧
    ∃ da db, arrayRead 0x40 TimerDelayTable = some da ∧
      arrayRead 0x80 TimerDelayTable = some db ∧ db ≤ da :=
  ⟨by decide, TimerDelayTable_antitone 0x40 0x80 (by decide) (by decide) (by decide)
    (by decide) (by decide)⟩

/-! ## The collection manager -/

theorem MergeBranches_nil (pending : List QuartetState) :
    MergeBranches [] pending = listSort CompareBranches pending := by
  unfold MergeBranches listMerge
  exact List.nil_merge _

theorem listSort_sorted (pending : List QuartetState) :
    (listSort CompareBranches pending).Pairwise (fun a b => a.TotalDelay ≤ b.TotalDelay) := by
  have hto : IsTotal QuartetState (fun a b => CompareBranches b a = false) :=
    ⟨fun a b => by simp only [CompareBranches, decide_eq_false_iff_not]; omega⟩
  have htr : IsTrans QuartetState (fun a b => CompareBranches b a = false) :=
    ⟨fun a b c => by simp only [CompareBranches, decide_eq_false_iff_not]; omega⟩
  have h := List.sorted_insertionSort (fun a b => CompareBranches b a = false) pending
  refine List.Pairwise.imp ?_ h
  intro a b hab
  simp only [CompareBranches, decide_eq_false_iff_not] at hab
  omega

theorem listSort_perm (pending : List QuartetState) :
    (listSort CompareBranches pending).Perm pending :=
  List.perm_insertionSort _ pending

theorem listUniqueFrom_sublist (pred : QuartetState → QuartetState → Bool) :
    ∀ (rest : List QuartetState) (kept : QuartetState),
    (listUniqueFrom pred kept rest).Sublist (kept :: rest) := by
  intro rest
  induction rest with
  | nil => intro kept; exact List.Sublist.refl _
  | cons next rest ih =>
    intro kept
    rw [listUniqueFrom]
    split
    · exact (ih kept).trans ((List.sublist_cons_self next rest).cons₂ kept)
    · exact (ih next).cons₂ kept

theorem listUnique_sublist (pred : QuartetState → QuartetState → Bool)
    (l : List QuartetState) : (listUnique pred l).Sublist l := by
  cases l with
  | nil => exact List.Sublist.refl _
  | cons first rest => exact listUniqueFrom_sublist pred rest first

theorem listUniqueFrom_chain (pred : QuartetState → QuartetState → Bool) :
    ∀ (rest : List QuartetState) (kept : QuartetState),
    ∃ t, listUniqueFrom pred kept rest = kept :: t ∧
      List.Chain (fun a b => pred a b = false) kept t := by
  intro rest
  induction rest with
  | nil => intro kept; exact ⟨[], rfl, List.Chain.nil⟩
  | cons next rest ih =>
    intro kept
    rw [listUniqueFrom]
    split
    · exact ih kept
    · rename_i hp
      obtain ⟨t, ht, hc⟩ := ih next
      exact ⟨next :: t, by rw [ht], List.Chain.cons (by simpa using hp) hc⟩

theorem listUnique_chain (pred : QuartetState → QuartetState → Bool)
    (l : List QuartetState) : List.Chain' (fun a b => pred a b = false) (listUnique pred l) := by
  cases l with
  | nil => exact List.chain'_nil
  | cons first rest =>
    obtain ⟨t, ht, hc⟩ := listUniqueFrom_chain pred rest first
    show List.Chain' _ (listUniqueFrom pred first rest)
    rw [ht]
    exact hc

theorem live_sorted (pending : List QuartetState) :
    (RemoveDuplicates (MergeBranches [] pending)).Pairwise
      (fun a b => a.TotalDelay ≤ b.TotalDelay) := by
  rw [MergeBranches_nil]
  exact (listSort_sorted pending).sublist (listUnique_sublist _ _)

theorem postTurn_TotalDelay (i : Nat) (b : QuartetState) :
    (postTurn i b).TotalDelay = b.TotalDelay := by
  unfold postTurn
  simp only []
  split_ifs <;> rfl

theorem firstTurnUpdate_TotalDelay (b : QuartetState) :
    (firstTurnUpdate b).TotalDelay = b.TotalDelay := rfl

theorem map_sorted (f : QuartetState → QuartetState)
    (hf : ∀ b, (f b).TotalDelay = b.TotalDelay) (l : List QuartetState)
    (h : l.Pairwise (fun a b => a.TotalDelay ≤ b.TotalDelay)) :
    (l.map f).Pairwise (fun a b => a.TotalDelay ≤ b.TotalDelay) := by
  rw [List.pairwise_map]
  refine List.Pairwise.imp ?_ h
  intro a b hab
  rw [hf a, hf b]
  exact hab

/-- C5: for every list of newly produced nodes, the live set that `MergeBranches` into the
empty live set and `RemoveDuplicates` produce is sorted by ascending `TotalDelay`, its
first element has the least `TotalDelay`, and the post-turn bookkeeping of any turn keeps
every `TotalDelay` in place, so the order stays. -/
theorem live_set_sorted (pending : List QuartetState) (i : Nat) :
    (RemoveDuplicates (MergeBranches [] pending)).Pairwise
      (fun a b => a.TotalDelay ≤ b.TotalDelay) ∧
    (∀ first rest, RemoveDuplicates (MergeBranches [] pending) = first :: rest →
      ∀ b ∈ rest, first.TotalDelay ≤ b.TotalDelay) ∧
    ((RemoveDuplicates (MergeBranches [] pending)).map (postTurn i)).map
        (fun b => b.TotalDelay) =
      (RemoveDuplicates (MergeBranches [] pending)).map (fun b => b.TotalDelay) ∧
    ((RemoveDuplicates (MergeBranches [] pending)).map (postTurn i)).Pairwise
      (fun a b => a.TotalDelay ≤ b.TotalDelay) := by
  refine ⟨live_sorted pending, ?_, ?_, map_sorted _ (postTurn_TotalDelay i) _ (live_sorted pending)⟩
  · intro first rest h b hb
    have hs := live_sorted pending
    rw [h] at hs
    exact (List.pairwise_cons.mp hs).1 b hb
  · rw [List.map_map]
    apply List.map_congr_left
    intro b _
    exact postTurn_TotalDelay i b

/-- C6, as the code has it: for every list of newly produced nodes, after `MergeBranches`
and `RemoveDuplicates` no two adjacent nodes of the live set agree on all of generator
state, face type, face progress, next-face state and total delay. -/
theorem live_set_no_adjacent_duplicates (pending : List QuartetState) :
    List.Chain' (fun a b => sameBranch a b = false)
      (RemoveDuplicates (MergeBranches [] pending)) :=
  listUnique_chain sameBranch _

/-- C6 fails as stated: of three new nodes with one total delay, of face types 0, 1, 0 and
equal otherwise, all three stay, and the first and the third agree on all five fields. -/
theorem live_set_duplicates_remain :
    ¬ NoTwoAgree (RemoveDuplicates (MergeBranches [] [typedState 0, typedState 1, typedState 0])) := by
  have h : RemoveDuplicates (MergeBranches [] [typedState 0, typedState 1, typedState 0]) =
      [typedState 0, typedState 1, typedState 0] := by decide!
  rw [h]
  intro hn
  have := hn 0 2 (typedState 0) (typedState 0) (by decide) rfl rfl
  revert this
  decide

/-! ## The pruning policy -/

theorem and_three_eq_mod (i : Nat) : i &&& 3 = i % 4 :=
  Nat.and_pow_two_sub_one_eq_mod i 2

theorem corner_mask_eq : ∀ k, k < 16 → ∀ fp, fp < 256 →
    ((1 <<< k) % 256) &&& fp = (1 <<< k) &&& fp := by
  decide!

theorem ShouldCullBranch_eq_false_iff (c : QuartetState) (hn : c.NextFaceState < 256)
    (hp : c.FaceProgress < 256) :
    ShouldCullBranch c = false ↔ c.TotalDelay ≤ 6884 ∧ faceAccepted c := by
  have e1 : (c.NextFaceState >>> 4) % 256 = c.NextFaceState >>> 4 := by
    rw [Nat.shiftRight_eq_div_pow]
    exact Nat.mod_eq_of_lt (by omega)
  have hk : c.NextFaceState &&& 0xF < 16 := by
    have := Nat.and_pow_two_sub_one_eq_mod c.NextFaceState 4
    simp only [Nat.reducePow, Nat.add_one_sub_one] at this
    rw [this]
    exact Nat.mod_lt _ (by norm_num)
  have e2 := corner_mask_eq _ hk _ hp
  unfold ShouldCullBranch HitDelayLimit faceAccepted
  simp only [e1, e2, Bool.or_eq_false_iff, decide_eq_false_iff_not, not_not, not_lt, gt_iff_lt]
  tauto

theorem HitDelayLimit_eq_false_iff (c : QuartetState) :
    HitDelayLimit c = false ↔ c.TotalDelay ≤ 6884 := by
  unfold HitDelayLimit
  simp only [decide_eq_false_iff_not, not_lt, gt_iff_lt]

/-- C7: in every turn `i`, a child (with its 8-bit fields in range) is appended to the
pending set exactly when its total delay is at most 6884 and either `i mod 4 = 3` or its
rolled face has its face type and a corner not set in its face progress. -/
theorem cull_agrees_with_raw_rule (i : Nat) (pendingBranches : List QuartetState)
    (c : QuartetState) (hn : c.NextFaceState < 256) (hp : c.FaceProgress < 256) :
    pushChild (decide (i &&& 3 = 3)) pendingBranches c =
      if c.TotalDelay ≤ 6884 ∧
          (i % 4 = 3 ∨ (c.NextFaceState >>> 4 = c.FaceType ∧
            (1 <<< (c.NextFaceState &&& 0xF)) &&& c.FaceProgress = 0))
      then pendingBranches ++ [c] else pendingBranches := by
  unfold pushChild
  rw [and_three_eq_mod]
  by_cases h3 : i % 4 = 3
  · simp only [h3, decide_True, if_true, true_or, and_true]
    by_cases hd : c.TotalDelay ≤ 6884
    · simp [(HitDelayLimit_eq_false_iff c).mpr hd, hd]
    · have : HitDelayLimit c = true := by
        simpa using (not_congr (HitDelayLimit_eq_false_iff c)).mpr hd
      simp [this, hd]
  · simp only [h3, decide_False, false_or]
    by_cases hc : ShouldCullBranch c = false
    · have := (ShouldCullBranch_eq_false_iff c hn hp).mp hc
      unfold faceAccepted at this
      simp [hc, this]
    · have hn2 := (not_congr (ShouldCullBranch_eq_false_iff c hn hp)).mp hc
      unfold faceAccepted at hn2
      have : ShouldCullBranch c = true := by simpa using hc
      simp only [this, Bool.not_true, if_neg hn2]
      simp

/-- The hypotheses of `cull_agrees_with_raw_rule` hold at turn 1 for the node of face
type 1 and generator state 1. -/
theorem cull_agrees_with_raw_rule_witness :
    ((typedState 1).NextFaceState < 256 ∧ (typedState 1).FaceProgress < 256) ∧
    pushChild (decide (1 &&& 3 = 3)) [] (typedState 1) =
      if (typedState 1).TotalDelay ≤ 6884 ∧
          (1 % 4 = 3 ∨ ((typedState 1).NextFaceState >>> 4 = (typedState 1).FaceType ∧
            (1 <<< ((typedState 1).NextFaceState &&& 0xF)) &&& (typedState 1).FaceProgress = 0))
      then [] ++ [typedState 1] else [] :=
  ⟨by decide, cull_agrees_with_raw_rule 1 [] (typedState 1) (by decide) (by decide)⟩

/-! ## The branch expander -/

theorem FindNextFace_eq (q : QuartetState) (h0 : q.RngState ≠ 0) (hs : q.RngState < 65536) :
    FindNextFace q = some { q with
      RngState := rngAdvance 2 q.RngState
      NextFaceState := rolledFace (rngAdvance 1 q.RngState) } := by
  unfold FindNextFace
  rw [AdvanceRng_eq q 1 h0 hs (by omega)]
  simp only []
  rw [AdvanceRng_eq _ 1 (rngAdvance_ne_zero 1 _ h0 hs) (rngAdvance_lt 1 _ hs) (by omega)]
  simp only [← rngAdvance_add, rolledFace]

theorem turnSetup_eq (i : Nat) (p : QuartetState) (budget : Nat) (h0 : p.RngState ≠ 0)
    (hs : p.RngState < 65536) (hb : GetTimerDelay p = some budget) :
    turnSetup i p = some ({ p with RngState := rngAdvance (phaseTicks i) p.RngState },
      if i % 4 = 1 then budget else (budget + 255) % 256) := by
  have hb2 : ∀ r, GetTimerDelay { p with RngState := r } = some budget := fun r => hb
  have hlt : i % 4 < 4 := Nat.mod_lt _ (by norm_num)
  unfold turnSetup
  rw [and_three_eq_mod]
  rcases (by omega : i % 4 = 0 ∨ i % 4 = 1 ∨ i % 4 = 2 ∨ i % 4 = 3) with h | h | h | h
  · rw [h]
    simp only []
    rw [AdvanceRng_eq p _ h0 hs (by split <;> omega)]
    simp only [hb2]
    unfold phaseTicks
    simp only [h]
    split <;> simp
  · rw [h]
    simp only []
    rw [AdvanceRng_eq p _ h0 hs (by omega)]
    simp only [hb2]
    unfold phaseTicks
    simp [h]
  · rw [h]
    simp only []
    rw [AdvanceRng_eq p _ h0 hs (by omega)]
    simp only [hb2]
    unfold phaseTicks
    simp [h]
  · rw [h]
    simp only []
    rw [AdvanceRng_eq p _ h0 hs (by omega)]
    simp only [hb2]
    unfold phaseTicks
    simp [h]

theorem TimerDelayTable_le (s budget : Nat) (h : arrayRead s TimerDelayTable = some budget) :
    budget ≤ 78 := by
  by_cases hs : s < 0x81
  · rw [TimerDelayTable_read_all s hs] at h
    by_cases hc : 0x40 ≤ s ∧ s % 2 = 0
    · rw [if_pos hc] at h
      have h2 := TimerDelayTable_read s hc.1 (by omega) hc.2
      rw [TimerDelayTable_read_all s hs, if_pos hc] at h2
      have h3 := (timerBudget_bounds s hc.1 (by omega)).2
      rw [← Option.some.inj h, Option.some.inj h2]
      exact h3
    · rw [if_neg hc] at h
      cases h
      omega
  · rw [TimerDelayTable_read_none s (by omega)] at h
    cases h

theorem expandLoop_eq (i : Nat) (sel : Bool) (L : Nat) (b0 : QuartetState)
    (h0 : b0.RngState ≠ 0) (hs : b0.RngState < 65536) (hL : L ≤ 254) :
    ∀ (n j fuel : Nat) (pending : List QuartetState), j + n = L + 1 → n < fuel →
    expandLoop i sel L fuel j { b0 with RngState := rngAdvance j b0.RngState } pending =
      some ((List.range' j n).foldl (fun acc k => pushChild sel acc
        { b0 with
          RngState := rngAdvance (k + 2) b0.RngState
          NextFaceState := rolledFace (rngAdvance (k + 1) b0.RngState)
          TurnDelays := b0.TurnDelays.set i k
          TotalDelay := (b0.TotalDelay + k) % 4294967296 }) pending) := by
  intro n
  induction n with
  | zero =>
    intro j fuel pending hj hf
    obtain ⟨f, rfl⟩ : ∃ f, fuel = f + 1 := ⟨fuel - 1, by omega⟩
    rw [expandLoop, if_neg (by omega)]
    rfl
  | succ n ih =>
    intro j fuel pending hj hf
    obtain ⟨f, rfl⟩ : ∃ f, fuel = f + 1 := ⟨fuel - 1, by omega⟩
    rw [expandLoop, if_pos (by omega)]
    simp only []
    rw [FindNextFace_eq _ (rngAdvance_ne_zero j _ h0 hs) (rngAdvance_lt j _ hs)]
    simp only []
    rw [AdvanceRng_eq _ 1 (rngAdvance_ne_zero j _ h0 hs) (rngAdvance_lt j _ hs) (by omega)]
    simp only [← rngAdvance_add]
    have e : (j + 1) % 256 = j + 1 := Nat.mod_eq_of_lt (by omega)
    rw [e, Nat.add_comm 1 j, ih (j + 1) f _ (by omega) (by omega), List.range'_succ,
      List.foldl_cons, Nat.add_comm 2 j]

/-- The expander on a parent with a non-zero 16-bit state, a timer speed inside the table
and, unless the turn is a new-face turn, a delay budget of at least 1. -/
theorem expandBranch_eq (i : Nat) (p : QuartetState) (budget : Nat)
    (h0 : p.RngState ≠ 0) (hs : p.RngState < 65536) (hb : GetTimerDelay p = some budget)
    (hpos : i % 4 ≠ 1 → 0 < budget) (pending : List QuartetState) :
    expandBranch i p pending =
      some ((List.range (phaseDelayLimit i budget + 1)).foldl
        (fun acc j => pushChild (decide (i % 4 = 3)) acc (candidate i p j)) pending) := by
  have hle := TimerDelayTable_le _ _ hb
  have hL : (if i % 4 = 1 then budget else (budget + 255) % 256) = phaseDelayLimit i budget := by
    unfold phaseDelayLimit
    split
    · rfl
    · rename_i h1
      have := hpos h1
      omega
  unfold expandBranch
  rw [turnSetup_eq i p budget h0 hs hb]
  simp only [hL, and_three_eq_mod]
  have hlim : phaseDelayLimit i budget ≤ 254 := by
    unfold phaseDelayLimit; split <;> omega
  have h := expandLoop_eq i (decide (i % 4 = 3)) (phaseDelayLimit i budget)
    { p with RngState := rngAdvance (phaseTicks i) p.RngState }
    (rngAdvance_ne_zero _ _ h0 hs) (rngAdvance_lt _ _ hs) hlim
    (phaseDelayLimit i budget + 1) 0 257 pending (by omega) (by omega)
  simp only [rngAdvance_zero] at h
  rw [h, List.range_eq_range']
  congr 1
  apply congrArg (fun f => List.foldl f pending _)
  funext acc k
  congr 1
  unfold candidate
  simp only [← rngAdvance_add]
  have e1 : k + 2 + phaseTicks i = phaseTicks i + k + 2 := by omega
  have e2 : k + 1 + phaseTicks i = phaseTicks i + k + 1 := by omega
  rw [e1, e2]

/-! ## One turn of the search -/

theorem speedAfter_bounds : ∀ i, speedAfter i % 2 = 0 ∧ 0x40 + 2 * (i % 4) ≤ speedAfter i ∧
    speedAfter i ≤ 0x80 := by
  intro i
  induction i with
  | zero => decide
  | succ i ih =>
    obtain ⟨h1, h2, h3⟩ := ih
    rw [speedAfter]
    have hm : i % 4 < 4 := Nat.mod_lt _ (by norm_num)
    split_ifs <;> omega

theorem speedAfter_budget (i : Nat) :
    ∃ budget, arrayRead (speedAfter i) TimerDelayTable = some budget ∧ 38 ≤ budget ∧
      budget ≤ 78 := by
  obtain ⟨h1, h2, h3⟩ := speedAfter_bounds i
  exact ⟨_, TimerDelayTable_read _ (by omega) h3 h1, timerBudget_bounds _ (by omega) h3⟩

theorem rolledFace_le (s : Nat) : rolledFace s ≤ 0x33 := Nat.and_le_right

theorem rolledFace_type_le (s : Nat) : rolledFace s >>> 4 ≤ 3 := by
  have := rolledFace_le s
  rw [Nat.shiftRight_eq_div_pow]
  omega

theorem rolledFace_corner_le (s : Nat) : rolledFace s &&& 0xF ≤ 3 := by
  unfold rolledFace
  rw [Nat.and_assoc]
  exact Nat.and_le_right

theorem corner_bit_le (k : Nat) (hk : k ≤ 3) : 1 <<< k ≤ 8 := by
  interval_cases k <;> decide

theorem pushChild_childKept (i : Nat) (acc : List QuartetState) (c : QuartetState)
    (hn : c.NextFaceState < 256) (hp : c.FaceProgress < 256) :
    pushChild (decide (i % 4 = 3)) acc c = if childKept i c then acc ++ [c] else acc := by
  unfold pushChild childKept
  by_cases h3 : i % 4 = 3
  · simp only [h3, decide_True, if_true, true_or, and_true]
    by_cases hd : c.TotalDelay ≤ 6884
    · simp [(HitDelayLimit_eq_false_iff c).mpr hd, hd]
    · have : HitDelayLimit c = true := by
        simpa using (not_congr (HitDelayLimit_eq_false_iff c)).mpr hd
      simp [this, hd]
  · simp only [h3, decide_False, false_or]
    by_cases hc : ShouldCullBranch c = false
    · have := (ShouldCullBranch_eq_false_iff c hn hp).mp hc
      simp [hc, this]
    · have hn2 := (not_congr (ShouldCullBranch_eq_false_iff c hn hp)).mp hc
      have : ShouldCullBranch c = true := by simpa using hc
      simp only [this, Bool.not_true, if_neg hn2]
      simp

theorem foldl_push_eq (f : Nat → QuartetState) (P : QuartetState → Prop) [DecidablePred P] :
    ∀ (l : List Nat) (acc : List QuartetState),
    l.foldl (fun acc j => if P (f j) then acc ++ [f j] else acc) acc =
      acc ++ (l.map f).filter (fun c => decide (P c)) := by
  intro l
  induction l with
  | nil => intro acc; simp
  | cons j l ih =>
    intro acc
    rw [List.foldl_cons, ih, List.map_cons, List.filter_cons]
    by_cases h : P (f j)
    · simp [h]
    · simp [h]

theorem expandBranch_keptChildren (i : Nat) (p : QuartetState) (hp : NodeOK (i - 1) p)
    (pending : List QuartetState) :
    expandBranch i p pending = some (pending ++ keptChildren i p) := by
  obtain ⟨h0, hs, hts, _, _, hfp, _⟩ := hp
  obtain ⟨budget, hb, hb1, _⟩ := speedAfter_budget (i - 1)
  rw [← hts] at hb
  rw [expandBranch_eq i p budget h0 hs hb (fun _ => by omega)]
  unfold keptChildren
  have hb2 : GetTimerDelay p = some budget := hb
  rw [hb2]
  simp only []
  rw [← foldl_push_eq (candidate i p) (childKept i)]
  congr 1
  apply congrArg (fun f => List.foldl f pending _)
  funext acc j
  exact pushChild_childKept i acc _ (Nat.lt_of_le_of_lt (rolledFace_le _) (by norm_num)) hfp

theorem expandBranches_keptChildren (i : Nat) : ∀ (ps pending : List QuartetState),
    (∀ p ∈ ps, NodeOK (i - 1) p) →
    expandBranches i ps pending = some (pending ++ ps.flatMap (keptChildren i)) := by
  intro ps
  induction ps with
  | nil => intro pending _; simp [expandBranches]
  | cons p ps ih =>
    intro pending h
    rw [expandBranches, expandBranch_keptChildren i p (h p (by simp))]
    simp only []
    rw [ih _ (fun q hq => h q (by simp [hq])), List.flatMap_cons, List.append_assoc]

theorem searchTurn_eq (i : Nat) (ps : List QuartetState) (h : ∀ p ∈ ps, NodeOK (i - 1) p) :
    searchTurn i ps = some ((RemoveDuplicates (MergeBranches []
      (ps.flatMap (keptChildren i)))).map (postTurn i)) := by
  unfold searchTurn
  rw [expandBranches_keptChildren i ps [] h]
  simp

/-! ## Turn 0 -/

theorem searchLoop_succ : ∀ (n i : Nat) (bs : List QuartetState),
    searchLoop (n + 1) i bs =
      match searchLoop n i bs with
      | none => none
      | some b => searchTurn (i + n) b := by
  intro n
  induction n with
  | zero =>
    intro i bs
    simp only [searchLoop, Nat.add_zero]
    cases searchTurn i bs <;> rfl
  | succ n ih =>
    intro i bs
    rw [searchLoop]
    conv_rhs => rw [searchLoop]
    cases searchTurn i bs with
    | none => rfl
    | some b =>
      simp only []
      rw [ih (i + 1) b]
      have e : i + 1 + n = i + (n + 1) := by omega
      rw [e]

theorem liveAfter_zero (seed : Nat) : liveAfter seed 0 = firstTurn seed := by
  unfold liveAfter
  cases firstTurn seed <;> rfl

theorem liveAfter_succ (seed n : Nat) :
    liveAfter seed (n + 1) =
      match liveAfter seed n with
      | none => none
      | some b => searchTurn (n + 1) b := by
  unfold liveAfter
  cases firstTurn seed with
  | none => rfl
  | some bs =>
    simp only []
    rw [searchLoop_succ, Nat.add_comm 1 n]

theorem byteswap_ok (seed : Nat) (h0 : seed ≠ 0) (hs : seed < 65536) :
    byteswap seed ≠ 0 ∧ byteswap seed < 65536 := by
  unfold byteswap
  omega

theorem initialNode_eq (seed : Nat) (h0 : byteswap seed ≠ 0) (hs : byteswap seed < 65536) :
    initialNode seed = some
      { zeroState with
        RngState := rngAdvance (2 + (5 + 10)) (byteswap seed)
        FaceType := rolledFace (rngAdvance 1 (byteswap seed)) >>> 4
        FaceProgress := 1 <<< (rolledFace (rngAdvance 1 (byteswap seed)) &&& 0xF)
        NextFaceState := rolledFace (rngAdvance 1 (byteswap seed))
        TimerSpeed := 0x40 } := by
  unfold initialNode
  simp only []
  rw [FindNextFace_eq _ h0 hs]
  simp only []
  rw [AdvanceRng_eq _ _ (rngAdvance_ne_zero 2 _ h0 hs) (rngAdvance_lt 2 _ hs) (by omega)]
  have e1 : (rolledFace (rngAdvance 1 (byteswap seed)) >>> 4) % 256 =
      rolledFace (rngAdvance 1 (byteswap seed)) >>> 4 :=
    Nat.mod_eq_of_lt (Nat.lt_of_le_of_lt (rolledFace_type_le _) (by norm_num))
  have e2 : (1 <<< (rolledFace (rngAdvance 1 (byteswap seed)) &&& 0xF)) % 256 =
      1 <<< (rolledFace (rngAdvance 1 (byteswap seed)) &&& 0xF) :=
    Nat.mod_eq_of_lt (Nat.lt_of_le_of_lt (corner_bit_le _ (rolledFace_corner_le _))
      (by norm_num))
  simp only [e1, e2, ← rngAdvance_add]

theorem firstTurnLoop_eq : ∀ (n i : Nat) (st : QuartetState) (pending : List QuartetState),
    st.RngState ≠ 0 → st.RngState < 65536 →
    firstTurnLoop n i st pending = some (pending ++ (List.range n).map (fun k =>
      { st with RngState := rngAdvance (k + 1) st.RngState, TurnDelay0 := i + k,
                TotalDelay := i + k })) := by
  intro n
  induction n with
  | zero => intro i st pending _ _; simp [firstTurnLoop]
  | succ n ih =>
    intro i st pending h0 hs
    rw [firstTurnLoop, AdvanceRng_eq st 1 h0 hs (by omega)]
    simp only []
    rw [ih _ _ _ (rngAdvance_ne_zero 1 _ h0 hs) (rngAdvance_lt 1 _ hs), List.range_succ_eq_map,
      List.map_cons, List.map_map, List.append_assoc]
    simp only [List.singleton_append, ← rngAdvance_add, Nat.add_zero, Nat.zero_add]
    congr 3
    apply List.map_congr_left
    intro k _
    simp only [Function.comp, Nat.succ_eq_add_one]
    have e1 : i + 1 + k = i + (k + 1) := by omega
    rw [e1]

theorem findNextFaces_eq : ∀ (l : List QuartetState),
    (∀ q ∈ l, q.RngState ≠ 0 ∧ q.RngState < 65536) →
    findNextFaces l = some (l.map (fun q => { q with
      RngState := rngAdvance 2 q.RngState
      NextFaceState := rolledFace (rngAdvance 1 q.RngState) })) := by
  intro l
  induction l with
  | nil => intro _; rfl
  | cons q l ih =>
    intro h
    rw [findNextFaces, FindNextFace_eq q (h q (by simp)).1 (h q (by simp)).2]
    simp only []
    rw [ih (fun r hr => h r (by simp [hr]))]
    rfl

theorem firstCandidate_fields (seed d0 : Nat) :
    (firstCandidate seed d0).NextFaceState < 256 ∧ (firstCandidate seed d0).FaceProgress < 256 ∧
      (firstCandidate seed d0).FaceType < 256 := by
  refine ⟨Nat.lt_of_le_of_lt (rolledFace_le _) (by norm_num),
    Nat.lt_of_le_of_lt (corner_bit_le _ (rolledFace_corner_le _)) (by norm_num),
    Nat.lt_of_le_of_lt (rolledFace_type_le _) (by norm_num)⟩

theorem firstTurnCandidates_rolled (seed : Nat) (h0 : byteswap seed ≠ 0)
    (hs : byteswap seed < 65536) :
    (match firstTurnCandidates seed with
      | none => none
      | some pendingBranches => findNextFaces pendingBranches) =
      some ((List.range 261).map (firstCandidate seed)) := by
  unfold firstTurnCandidates
  rw [initialNode_eq seed h0 hs]
  simp only []
  rw [firstTurnLoop_eq _ _ _ _ (rngAdvance_ne_zero _ _ h0 hs) (rngAdvance_lt _ _ hs)]
  simp only []
  rw [findNextFaces_eq]
  · rw [List.range_succ_eq_map 260]
    simp only [List.singleton_append, List.map_cons, List.map_map, ← rngAdvance_add,
      Option.some.injEq, List.cons.injEq]
    refine ⟨?_, ?_⟩
    · unfold firstCandidate zeroState
      simp only [Nat.add_zero]
    · apply List.map_congr_left
      intro k _
      simp only [Function.comp, Nat.succ_eq_add_one]
      unfold firstCandidate zeroState
      simp only [QuartetState.mk.injEq, and_true, true_and]
      rw [← rngAdvance_add, ← rngAdvance_add]
      refine ⟨?_, ?_, ?_, ?_⟩
      · congr 1; omega
      · congr 2; omega
      · omega
      · omega
  · intro q hq
    simp only [List.singleton_append, List.mem_cons, List.mem_map, List.mem_range] at hq
    rcases hq with rfl | ⟨k, _, rfl⟩
    · exact ⟨rngAdvance_ne_zero _ _ h0 hs, rngAdvance_lt _ _ hs⟩
    · simp only [← rngAdvance_add]
      exact ⟨rngAdvance_ne_zero _ _ h0 hs, rngAdvance_lt _ _ hs⟩

theorem CullBranches_eq_filter (l : List QuartetState)
    (h : ∀ c ∈ l, c.NextFaceState < 256 ∧ c.FaceProgress < 256) :
    CullBranches l = l.filter (fun c => decide (c.TotalDelay ≤ 6884 ∧ faceAccepted c)) := by
  unfold CullBranches
  apply List.filter_congr
  intro c hc
  by_cases hcull : ShouldCullBranch c = false
  · have := (ShouldCullBranch_eq_false_iff c (h c hc).1 (h c hc).2).mp hcull
    simp [hcull, this]
  · have hn := (not_congr (ShouldCullBranch_eq_false_iff c (h c hc).1 (h c hc).2)).mp hcull
    have : ShouldCullBranch c = true := by simpa using hcull
    simp only [this, Bool.not_true]
    exact (decide_eq_false hn).symm

/-- Turn 0 from a seed whose swapped bytes are a non-zero 16-bit state: the candidates of
the first-turn delays `0..260`, culled by the raw rule, sorted and updated. -/
theorem firstTurn_eq (seed : Nat) (h0 : byteswap seed ≠ 0) (hs : byteswap seed < 65536) :
    firstTurn seed = some ((MergeBranches [] (((List.range 261).map (firstCandidate seed)).filter
      (fun c => decide (c.TotalDelay ≤ 6884 ∧ faceAccepted c)))).map firstTurnUpdate) := by
  have h := firstTurnCandidates_rolled seed h0 hs
  unfold firstTurn
  cases hc : firstTurnCandidates seed with
  | none => rw [hc] at h; cases h
  | some pendingBranches =>
    rw [hc] at h
    simp only [] at h ⊢
    rw [h]
    simp only []
    rw [CullBranches_eq_filter]
    intro c hcm
    obtain ⟨d, _, rfl⟩ := List.mem_map.mp hcm
    exact ⟨(firstCandidate_fields seed d).1, (firstCandidate_fields seed d).2.1⟩

/-! ## The turn rules on one path -/

theorem postTurn_fields (i : Nat) (q : QuartetState) :
    (postTurn i q).RngState = q.RngState ∧ (postTurn i q).NextFaceState = q.NextFaceState ∧
    (postTurn i q).TurnDelay0 = q.TurnDelay0 ∧ (postTurn i q).TurnDelays = q.TurnDelays ∧
    (postTurn i q).FaceProgress < 256 ∧ (q.FaceType < 256 → (postTurn i q).FaceType < 256) := by
  unfold postTurn
  simp only []
  split_ifs <;> refine ⟨rfl, rfl, rfl, rfl, Nat.mod_lt _ (by norm_num), ?_⟩ <;> intro h <;>
    first
    | exact h
    | exact Nat.mod_lt _ (by norm_num)

theorem postTurn_TimerSpeed_eq (i : Nat) (q : QuartetState) :
    (postTurn i q).TimerSpeed =
      if (if i % 4 = 0 then (q.TimerSpeed + 250) % 256 else q.TimerSpeed) < 0x80
      then ((if i % 4 = 0 then (q.TimerSpeed + 250) % 256 else q.TimerSpeed) + 2) % 256
      else (if i % 4 = 0 then (q.TimerSpeed + 250) % 256 else q.TimerSpeed) := by
  unfold postTurn
  simp only [and_three_eq_mod]
  by_cases h1 : i % 4 = 0
  · have h3 : ¬ i % 4 = 3 := by omega
    simp only [h1, h3, if_true, if_false]
    split_ifs <;> rfl
  · by_cases h3 : i % 4 = 3
    · simp only [h1, h3, if_true, if_false]
      split_ifs <;> rfl
    · simp only [h1, h3, if_false]
      split_ifs <;> rfl

theorem postTurn_TimerSpeed (k : Nat) (q : QuartetState) (h : q.TimerSpeed = speedAfter k) :
    (postTurn (k + 1) q).TimerSpeed = speedAfter (k + 1) := by
  obtain ⟨h1, h2, h3⟩ := speedAfter_bounds k
  have hm : k % 4 < 4 := Nat.mod_lt _ (by norm_num)
  rw [postTurn_TimerSpeed_eq, speedAfter, h]
  split_ifs <;> omega

theorem scheduleTotal_zero (d : Nat → Nat) : scheduleTotal d 0 = d 0 := by
  simp [scheduleTotal, List.range_succ]

theorem scheduleTotal_succ (d : Nat → Nat) (n : Nat) :
    scheduleTotal d (n + 1) = scheduleTotal d n + d (n + 1) := by
  unfold scheduleTotal
  rw [List.range_succ, List.map_append, List.sum_append]
  simp

theorem replayFirst_some (seed d0 : Nat) (r : QuartetState) (h0 : seed ≠ 0) (hs : seed < 65536)
    (h : replayFirst seed d0 = some r) :
    r = firstTurnUpdate (firstCandidate seed d0) ∧ d0 ≤ 260 ∧
      faceAccepted (firstCandidate seed d0) ∧ NodeOK 0 r ∧ r.TotalDelay = d0 ∧
      r.TurnDelay0 = d0 ∧ r.TurnDelays = List.replicate 2863 0 := by
  unfold replayFirst at h
  split at h
  · rename_i hc
    cases h
    obtain ⟨hb0, hb1⟩ := byteswap_ok seed h0 hs
    refine ⟨rfl, hc.1, hc.2.2, ⟨rngAdvance_ne_zero _ _ hb0 hb1, rngAdvance_lt _ _ hb1, rfl,
      hc.2.1, (firstCandidate_fields seed d0).2.2, Nat.mod_lt _ (by norm_num), ?_⟩, rfl, rfl, rfl⟩
    show (List.replicate 2863 0).length = 2863
    exact List.length_replicate _ _
  · cases h

theorem candidate_fields (i : Nat) (p : QuartetState) (j : Nat) :
    (candidate i p j).NextFaceState < 256 ∧ (candidate i p j).FaceProgress = p.FaceProgress ∧
      (candidate i p j).FaceType = p.FaceType ∧ (candidate i p j).TimerSpeed = p.TimerSpeed ∧
      (candidate i p j).TurnDelay0 = p.TurnDelay0 :=
  ⟨Nat.lt_of_le_of_lt (rolledFace_le _) (by norm_num), rfl, rfl, rfl, rfl⟩

theorem replayTurn_some (k d : Nat) (p r : QuartetState) (hp : NodeOK k p)
    (h : replayTurn (k + 1) d p = some r) :
    r = postTurn (k + 1) (candidate (k + 1) p d) ∧ d ≤ 78 ∧
      (∃ budget, GetTimerDelay p = some budget ∧ d ≤ phaseDelayLimit (k + 1) budget) ∧
      childKept (k + 1) (candidate (k + 1) p d) ∧ NodeOK (k + 1) r ∧
      r.TotalDelay = p.TotalDelay + d ∧ r.TurnDelay0 = p.TurnDelay0 ∧
      r.TurnDelays = p.TurnDelays.set (k + 1) d := by
  obtain ⟨h0, hs, hts, htot, hft, hfp, hlen⟩ := hp
  unfold replayTurn at h
  cases hb : GetTimerDelay p with
  | none => rw [hb] at h; cases h
  | some budget =>
    rw [hb] at h
    simp only [] at h
    split at h
    · rename_i hc
      cases h
      have hle := TimerDelayTable_le _ _ hb
      have hd : d ≤ 78 := by
        have := hc.1
        unfold phaseDelayLimit at this
        split at this <;> omega
      have hsum : (p.TotalDelay + d) % 4294967296 = p.TotalDelay + d :=
        Nat.mod_eq_of_lt (by omega)
      have hf := postTurn_fields (k + 1) (candidate (k + 1) p d)
      have hkept := hc.2
      refine ⟨rfl, hd, ⟨budget, rfl, hc.1⟩, hkept, ⟨?_, ?_, ?_, ?_, ?_, ?_, ?_⟩, ?_, ?_, ?_⟩
      · rw [hf.1]; exact rngAdvance_ne_zero _ _ h0 hs
      · rw [hf.1]; exact rngAdvance_lt _ _ hs
      · exact postTurn_TimerSpeed k _ hts
      · rw [postTurn_TotalDelay]; exact hkept.1
      · exact hf.2.2.2.2.2 hft
      · exact hf.2.2.2.2.1
      · rw [hf.2.2.2.1]
        show (p.TurnDelays.set (k + 1) d).length = 2863
        rw [List.length_set]; exact hlen
      · rw [postTurn_TotalDelay]; exact hsum
      · rw [hf.2.2.1]; rfl
      · rw [hf.2.2.2.1]; rfl
    · cases h

theorem replay_succ (seed : Nat) (d : Nat → Nat) (n : Nat) :
    replay seed d (n + 1) =
      match replay seed d n with
      | none => none
      | some p => replayTurn (n + 1) (d (n + 1)) p := rfl

theorem replay_some (seed : Nat) (d : Nat → Nat) (h0 : seed ≠ 0) (hs : seed < 65536) :
    ∀ (n : Nat) (r : QuartetState), n ≤ 2862 → replay seed d n = some r →
    NodeOK n r ∧ r.TotalDelay = scheduleTotal d n ∧ r.TurnDelay0 = d 0 ∧
      (∀ k, r.TurnDelays.getD k 0 = if 1 ≤ k ∧ k ≤ n then d k else 0) ∧
      d 0 ≤ 260 ∧ (∀ k, 1 ≤ k → k ≤ n → d k ≤ 78) := by
  intro n
  induction n with
  | zero =>
    intro r _ h
    obtain ⟨_, h1, _, h2, h3, h4, h5⟩ := replayFirst_some seed (d 0) r h0 hs h
    refine ⟨h2, by rw [h3, scheduleTotal_zero], h4, ?_, h1, fun k hk1 hk2 => by omega⟩
    intro k
    rw [h5, if_neg (by omega), List.getD_eq_getElem?_getD, List.getElem?_replicate]
    split <;> rfl
  | succ n ih =>
    intro r hn h
    rw [replay_succ] at h
    cases hp : replay seed d n with
    | none => rw [hp] at h; cases h
    | some p =>
      rw [hp] at h
      simp only [] at h
      obtain ⟨i1, i2, i3, i4, i5, i6⟩ := ih p (by omega) hp
      obtain ⟨_, j1, _, _, j2, j3, j4, j5⟩ := replayTurn_some n (d (n + 1)) p r i1 h
      refine ⟨j2, by rw [j3, i2, scheduleTotal_succ], by rw [j4, i3], ?_, i5, ?_⟩
      · intro k
        rw [j5, List.getD_eq_getElem?_getD]
        by_cases hk : n + 1 = k
        · subst hk
          rw [List.getElem?_set_self (by rw [i1.2.2.2.2.2.2]; omega), if_pos (by omega)]
          rfl
        · rw [List.getElem?_set_ne hk, ← List.getD_eq_getElem?_getD, i4 k]
          by_cases hk2 : 1 ≤ k ∧ k ≤ n
          · rw [if_pos hk2, if_pos (by omega)]
          · rw [if_neg hk2, if_neg (by omega)]
      · intro k hk1 hk2
        rcases Nat.eq_or_lt_of_le hk2 with he | hl
        · rw [he]; exact j1
        · exact i6 k hk1 (by omega)

theorem replay_congr (seed : Nat) (d e : Nat → Nat) :
    ∀ (n : Nat), (∀ k, k ≤ n → d k = e k) → replay seed d n = replay seed e n := by
  intro n
  induction n with
  | zero =>
    intro h
    show replayFirst seed (d 0) = replayFirst seed (e 0)
    rw [h 0 (Nat.le_refl 0)]
  | succ n ih =>
    intro h
    rw [replay_succ, replay_succ, ih (fun k hk => h k (by omega)), h (n + 1) (Nat.le_refl _)]

/-- The node of a schedule is the node of the delays it records. -/
theorem replay_recorded (seed : Nat) (d : Nat → Nat) (h0 : seed ≠ 0) (hs : seed < 65536)
    (n : Nat) (r : QuartetState) (hn : n ≤ 2862) (h : replay seed d n = some r) :
    replay seed (recordedDelays r) n = some r := by
  obtain ⟨_, _, h3, h4, _, _⟩ := replay_some seed d h0 hs n r hn h
  rw [← h]
  apply replay_congr
  intro k hk
  unfold recordedDelays
  by_cases hk0 : k = 0
  · rw [if_pos hk0, hk0, h3]
  · rw [if_neg hk0, h4 k, if_pos (by omega)]

/-! ## The live set against the schedules -/

theorem mem_keptChildren (i : Nat) (p c : QuartetState) :
    c ∈ keptChildren i p ↔ ∃ budget j, GetTimerDelay p = some budget ∧
      j ≤ phaseDelayLimit i budget ∧ c = candidate i p j ∧ childKept i c := by
  unfold keptChildren
  cases hb : GetTimerDelay p with
  | none => simp
  | some budget =>
    simp only [List.mem_filter, List.mem_map, List.mem_range, decide_eq_true_eq,
      Option.some.injEq]
    constructor
    · rintro ⟨⟨j, hj, rfl⟩, hk⟩
      exact ⟨budget, j, rfl, by omega, rfl, hk⟩
    · rintro ⟨b, j, rfl, hj, rfl, hk⟩
      exact ⟨⟨j, by omega, rfl⟩, hk⟩

theorem replayTurn_of_kept (i j budget : Nat) (p : QuartetState)
    (hb : GetTimerDelay p = some budget) (hj : j ≤ phaseDelayLimit i budget)
    (hk : childKept i (candidate i p j)) :
    replayTurn i j p = some (postTurn i (candidate i p j)) := by
  unfold replayTurn
  rw [hb]
  simp only []
  rw [if_pos ⟨hj, hk⟩]

theorem mem_live_merge (l : List QuartetState) (c : QuartetState) :
    c ∈ MergeBranches [] l ↔ c ∈ l := by
  rw [MergeBranches_nil]
  exact (listSort_perm l).mem_iff

theorem mem_RemoveDuplicates (l : List QuartetState) (c : QuartetState)
    (h : c ∈ RemoveDuplicates l) : c ∈ l :=
  (listUnique_sublist sameBranch l).subset h

theorem firstTurn_sorted (seed : Nat) (bs : List QuartetState) (h : firstTurn seed = some bs) :
    bs.Pairwise (fun a b => a.TotalDelay ≤ b.TotalDelay) := by
  unfold firstTurn at h
  cases hc : firstTurnCandidates seed with
  | none => rw [hc] at h; cases h
  | some pendingBranches =>
    rw [hc] at h
    simp only [] at h
    cases hf : findNextFaces pendingBranches with
    | none => rw [hf] at h; cases h
    | some rolled =>
      rw [hf] at h
      simp only [Option.some.injEq] at h
      rw [← h, MergeBranches_nil]
      exact map_sorted _ firstTurnUpdate_TotalDelay _ (listSort_sorted _)

theorem searchTurn_sorted (i : Nat) (ps bs : List QuartetState)
    (h : searchTurn i ps = some bs) :
    bs.Pairwise (fun a b => a.TotalDelay ≤ b.TotalDelay) := by
  unfold searchTurn at h
  cases he : expandBranches i ps [] with
  | none => rw [he] at h; cases h
  | some pending =>
    rw [he] at h
    simp only [Option.some.injEq] at h
    rw [← h]
    exact map_sorted _ (postTurn_TotalDelay i) _ (live_sorted pending)

/-- The live set is sorted by ascending total delay after every turn. -/
theorem liveAfter_sorted (seed n : Nat) (bs : List QuartetState)
    (h : liveAfter seed n = some bs) :
    bs.Pairwise (fun a b => a.TotalDelay ≤ b.TotalDelay) := by
  cases n with
  | zero =>
    rw [liveAfter_zero] at h
    exact firstTurn_sorted seed bs h
  | succ n =>
    rw [liveAfter_succ] at h
    cases hp : liveAfter seed n with
    | none => rw [hp] at h; cases h
    | some ps =>
      rw [hp] at h
      exact searchTurn_sorted (n + 1) ps bs h

/-- Soundness: after every turn the search has a live set, and every node of it is the node
of a schedule. -/
theorem liveAfter_sound (seed : Nat) (h0 : seed ≠ 0) (hs : seed < 65536) :
    ∀ n, n ≤ 2862 → ∃ bs, liveAfter seed n = some bs ∧
      ∀ q ∈ bs, ∃ d, replay seed d n = some q := by
  obtain ⟨hb0, hb1⟩ := byteswap_ok seed h0 hs
  intro n
  induction n with
  | zero =>
    intro _
    refine ⟨_, by rw [liveAfter_zero]; exact firstTurn_eq seed hb0 hb1, ?_⟩
    intro q hq
    obtain ⟨c, hc, rfl⟩ := List.mem_map.mp hq
    rw [mem_live_merge] at hc
    obtain ⟨hc1, hc2⟩ := List.mem_filter.mp hc
    obtain ⟨d0, hd0, rfl⟩ := List.mem_map.mp hc1
    refine ⟨fun _ => d0, ?_⟩
    show replayFirst seed d0 = _
    unfold replayFirst
    have hd : d0 ≤ 260 := by have := List.mem_range.mp hd0; omega
    rw [if_pos ⟨hd, of_decide_eq_true hc2⟩]
  | succ n ih =>
    intro hn
    obtain ⟨ps, hps, hall⟩ := ih (by omega)
    have hok : ∀ p ∈ ps, NodeOK (n + 1 - 1) p := by
      intro p hp
      obtain ⟨d, hd⟩ := hall p hp
      exact (replay_some seed d h0 hs n p (by omega) hd).1
    refine ⟨_, by rw [liveAfter_succ, hps]; exact searchTurn_eq (n + 1) ps hok, ?_⟩
    intro q hq
    obtain ⟨c, hc, rfl⟩ := List.mem_map.mp hq
    have hc2 := (mem_live_merge _ c).mp (mem_RemoveDuplicates _ c hc)
    obtain ⟨p, hp, hcp⟩ := List.mem_flatMap.mp hc2
    obtain ⟨budget, j, hb, hj, rfl, hk⟩ := (mem_keptChildren (n + 1) p c).mp hcp
    obtain ⟨d, hd⟩ := hall p hp
    refine ⟨Function.update d (n + 1) j, ?_⟩
    rw [replay_succ, replay_congr seed (Function.update d (n + 1) j) d n
      (fun k hk => Function.update_noteq (by omega) _ _), hd]
    simp only [Function.update_same]
    exact replayTurn_of_kept (n + 1) j budget p hb hj hk

theorem sameBranch_iff (a b : QuartetState) :
    sameBranch a b = true ↔ a.RngState = b.RngState ∧ a.FaceType = b.FaceType ∧
      a.FaceProgress = b.FaceProgress ∧ a.NextFaceState = b.NextFaceState ∧
      a.TotalDelay = b.TotalDelay := by
  unfold sameBranch
  simp only [Bool.and_eq_true, decide_eq_true_eq]
  tauto

theorem sameBranch_refl (a : QuartetState) : sameBranch a a = true :=
  (sameBranch_iff a a).mpr ⟨rfl, rfl, rfl, rfl, rfl⟩

theorem sameBranch_trans (a b c : QuartetState) (h1 : sameBranch a b = true)
    (h2 : sameBranch b c = true) : sameBranch a c = true := by
  rw [sameBranch_iff] at *
  obtain ⟨a1, a2, a3, a4, a5⟩ := h1
  obtain ⟨b1, b2, b3, b4, b5⟩ := h2
  exact ⟨a1.trans b1, a2.trans b2, a3.trans b3, a4.trans b4, a5.trans b5⟩

theorem candidate_sameBranch (i j : Nat) (a b : QuartetState) (h : sameBranch a b = true) :
    sameBranch (candidate i a j) (candidate i b j) = true := by
  rw [sameBranch_iff] at *
  obtain ⟨h1, h2, h3, h4, h5⟩ := h
  unfold candidate
  simp only [h1, h2, h3, h5, and_self]

theorem childKept_congr (i : Nat) (a b : QuartetState) (h : sameBranch a b = true) :
    childKept i a ↔ childKept i b := by
  rw [sameBranch_iff] at h
  obtain ⟨h1, h2, h3, h4, h5⟩ := h
  unfold childKept faceAccepted
  rw [h2, h3, h4, h5]

theorem postTurn_face_eq (i : Nat) (q : QuartetState) :
    (postTurn i q).FaceType = (if i % 4 = 3 then (q.NextFaceState >>> 4) % 256 else q.FaceType) ∧
    (postTurn i q).FaceProgress =
      ((if i % 4 = 3 then 0 else q.FaceProgress) ||| (1 <<< (q.NextFaceState &&& 0xF))) % 256 := by
  unfold postTurn
  simp only [and_three_eq_mod]
  by_cases h1 : i % 4 = 0
  · have h3 : ¬ i % 4 = 3 := by omega
    simp only [h1, h3, if_true, if_false]
    split_ifs <;> exact ⟨rfl, rfl⟩
  · by_cases h3 : i % 4 = 3
    · simp only [h1, h3, if_true, if_false]
      split_ifs <;> exact ⟨rfl, rfl⟩
    · simp only [h1, h3, if_false]
      split_ifs <;> exact ⟨rfl, rfl⟩

theorem postTurn_sameBranch (i : Nat) (a b : QuartetState) (h : sameBranch a b = true) :
    sameBranch (postTurn i a) (postTurn i b) = true := by
  rw [sameBranch_iff] at *
  obtain ⟨h1, h2, h3, h4, h5⟩ := h
  have ha := postTurn_fields i a
  have hb := postTurn_fields i b
  refine ⟨by rw [ha.1, hb.1, h1], ?_, ?_, by rw [ha.2.1, hb.2.1, h4],
    by rw [postTurn_TotalDelay, postTurn_TotalDelay, h5]⟩
  · rw [(postTurn_face_eq i a).1, (postTurn_face_eq i b).1, h2, h4]
  · rw [(postTurn_face_eq i a).2, (postTurn_face_eq i b).2, h3, h4]

theorem mem_listUniqueFrom_self (pred : QuartetState → QuartetState → Bool) :
    ∀ (rest : List QuartetState) (kept : QuartetState), kept ∈ listUniqueFrom pred kept rest := by
  intro rest kept
  obtain ⟨t, ht, _⟩ := listUniqueFrom_chain pred rest kept
  rw [ht]
  exact List.mem_cons_self _ _

theorem listUniqueFrom_represents (pred : QuartetState → QuartetState → Bool)
    (hrefl : ∀ a, pred a a = true) :
    ∀ (rest : List QuartetState) (kept c : QuartetState), c ∈ kept :: rest →
    ∃ m, m ∈ listUniqueFrom pred kept rest ∧ pred m c = true := by
  intro rest
  induction rest with
  | nil =>
    intro kept c hc
    simp only [List.mem_singleton] at hc
    subst hc
    exact ⟨c, by simp [listUniqueFrom], hrefl c⟩
  | cons next rest ih =>
    intro kept c hc
    rw [listUniqueFrom]
    rcases List.mem_cons.mp hc with rfl | hc2
    · exact ⟨c, by split; exact mem_listUniqueFrom_self pred rest c; exact List.mem_cons_self _ _,
        hrefl c⟩
    · split
      · rename_i hp
        rcases List.mem_cons.mp hc2 with rfl | hc3
        · exact ⟨kept, mem_listUniqueFrom_self pred rest kept, hp⟩
        · exact ih kept c (List.mem_cons_of_mem _ hc3)
      · obtain ⟨m, hm, hpm⟩ := ih next c hc2
        exact ⟨m, List.mem_cons_of_mem _ hm, hpm⟩

/-- Deduplication keeps, for every node, a node with the same five fields. -/
theorem RemoveDuplicates_represents (l : List QuartetState) (c : QuartetState) (hc : c ∈ l) :
    ∃ m, m ∈ RemoveDuplicates l ∧ sameBranch m c = true := by
  cases l with
  | nil => cases hc
  | cons first rest => exact listUniqueFrom_represents sameBranch sameBranch_refl rest first c hc

/-- Completeness: after every turn the live set holds, for every valid schedule, a node with
the generator state, face type, face progress, next-face state and total delay of the
schedule's node. -/
theorem liveAfter_complete (seed : Nat) (h0 : seed ≠ 0) (hs : seed < 65536) :
    ∀ n, n ≤ 2862 → ∀ (d : Nat → Nat) (r : QuartetState), replay seed d n = some r →
      ∃ bs q, liveAfter seed n = some bs ∧ q ∈ bs ∧ sameBranch q r = true := by
  obtain ⟨hb0, hb1⟩ := byteswap_ok seed h0 hs
  intro n
  induction n with
  | zero =>
    intro _ d r hr
    obtain ⟨rfl, hd, hacc, hok, _⟩ := replayFirst_some seed (d 0) r h0 hs hr
    refine ⟨_, _, by rw [liveAfter_zero]; exact firstTurn_eq seed hb0 hb1, ?_, sameBranch_refl _⟩
    apply List.mem_map_of_mem
    rw [mem_live_merge]
    apply List.mem_filter.mpr
    refine ⟨List.mem_map_of_mem _ (List.mem_range.mpr (by omega)), ?_⟩
    exact decide_eq_true ⟨hok.2.2.2.1, hacc⟩
  | succ n ih =>
    intro hn d r hr
    rw [replay_succ] at hr
    cases hp : replay seed d n with
    | none => rw [hp] at hr; cases hr
    | some p =>
      rw [hp] at hr
      simp only [] at hr
      obtain ⟨ps, q, hps, hq, hqp⟩ := ih (by omega) d p hp
      obtain ⟨ps2, hps2, hall⟩ := liveAfter_sound seed h0 hs n (by omega)
      rw [hps] at hps2
      cases hps2
      have hok : ∀ x ∈ ps, NodeOK (n + 1 - 1) x := by
        intro x hx
        obtain ⟨e, he⟩ := hall x hx
        exact (replay_some seed e h0 hs n x (by omega) he).1
      have hokp := (replay_some seed d h0 hs n p (by omega) hp).1
      obtain ⟨rfl, _, ⟨budget, hb, hj⟩, hk, _⟩ := replayTurn_some n (d (n + 1)) p r hokp hr
      have hbq : GetTimerDelay q = some budget := by
        have e : q.TimerSpeed = p.TimerSpeed := by
          rw [(hok q hq).2.2.1, hokp.2.2.1]; rfl
        unfold GetTimerDelay at hb ⊢
        rw [e]; exact hb
      have hsame := candidate_sameBranch (n + 1) (d (n + 1)) q p hqp
      have hkq : childKept (n + 1) (candidate (n + 1) q (d (n + 1))) :=
        (childKept_congr (n + 1) _ _ hsame).mpr hk
      have hmem : candidate (n + 1) q (d (n + 1)) ∈
          MergeBranches [] (ps.flatMap (keptChildren (n + 1))) := by
        rw [mem_live_merge]
        exact List.mem_flatMap.mpr ⟨q, hq,
          (mem_keptChildren (n + 1) q _).mpr ⟨budget, d (n + 1), hbq, hj, rfl, hkq⟩⟩
      obtain ⟨m, hm, hmc⟩ := RemoveDuplicates_represents _ _ hmem
      refine ⟨_, postTurn (n + 1) m,
        by rw [liveAfter_succ, hps]; exact searchTurn_eq (n + 1) ps hok,
        List.mem_map_of_mem _ hm, ?_⟩
      exact postTurn_sameBranch (n + 1) _ _ (sameBranch_trans _ _ _ hmc hsame)

/-! ## The answer of the search -/

theorem scheduleTotal_split (d : Nat → Nat) (n : Nat) :
    scheduleTotal d n = d 0 + ((List.range' 1 n).map d).sum := by
  unfold scheduleTotal
  rw [List.range_eq_range', List.range'_succ, List.map_cons, List.sum_cons]

theorem foldl_mod_sum (f : Nat → Nat) (M : Nat) : ∀ (l : List Nat) (a : Nat),
    l.foldl (fun acc i => (acc + f i) % M) (a % M) = (a + (l.map f).sum) % M := by
  intro l
  induction l with
  | nil => intro a; simp
  | cons i l ih =>
    intro a
    rw [List.foldl_cons, Nat.mod_add_mod, ih, List.map_cons, List.sum_cons, Nat.add_assoc]

theorem recorded_sums (q : QuartetState) (d : Nat → Nat) (n : Nat) (hn : n ≤ 2862)
    (h4 : ∀ k, q.TurnDelays.getD k 0 = if 1 ≤ k ∧ k ≤ n then d k else 0) :
    ((List.range' 1 n).map (fun k => q.TurnDelays.getD k 0)).sum = ((List.range' 1 n).map d).sum ∧
    ((List.range' 1 2862).map (fun k => q.TurnDelays.getD k 0)).sum =
      ((List.range' 1 n).map d).sum := by
  have h1 : (List.range' 1 n).map (fun k => q.TurnDelays.getD k 0) = (List.range' 1 n).map d := by
    apply List.map_congr_left
    intro k hk
    have := List.mem_range'_1.mp hk
    rw [h4 k, if_pos (by omega)]
  have h2 : (List.range' (1 + n) (2862 - n)).map (fun k => q.TurnDelays.getD k 0) =
      (List.range' (1 + n) (2862 - n)).map (fun _ => 0) := by
    apply List.map_congr_left
    intro k hk
    have := List.mem_range'_1.mp hk
    rw [h4 k, if_neg (by omega)]
  refine ⟨by rw [h1], ?_⟩
  have e : List.range' 1 2862 = List.range' 1 n ++ List.range' (1 + n) (2862 - n) := by
    rw [List.range'_append_1]
    congr 1
    omega
  rw [e, List.map_append, List.sum_append, h1, h2]
  simp

theorem node_totals (seed : Nat) (d : Nat → Nat) (h0 : seed ≠ 0) (hs : seed < 65536)
    (n : Nat) (q : QuartetState) (hn : n ≤ 2862) (h : replay seed d n = some q) :
    q.TotalDelay = q.TurnDelay0 + ((List.range' 1 n).map (fun k => q.TurnDelays.getD k 0)).sum ∧
    (∀ k, n < k → q.TurnDelays.getD k 0 = 0) ∧
    (writtenDelays q).sum = q.TotalDelay ∧ writtenTotal q = q.TotalDelay := by
  obtain ⟨hok, h2, h3, h4, _, _⟩ := replay_some seed d h0 hs n q hn h
  obtain ⟨e1, e2⟩ := recorded_sums q d n hn h4
  have hsum : q.TotalDelay = q.TurnDelay0 + ((List.range' 1 n).map d).sum := by
    rw [h2, scheduleTotal_split, h3]
  refine ⟨by rw [e1]; exact hsum, ?_, ?_, ?_⟩
  · intro k hk
    rw [h4 k, if_neg (by omega)]
  · unfold writtenDelays
    rw [List.sum_cons, e2]
    exact hsum.symm
  · unfold writtenTotal
    rw [foldl_mod_sum (fun i => q.TurnDelays.getD i 0), e2, ← hsum]
    exact Nat.mod_eq_of_lt (by have := hok.2.2.2.1; omega)

theorem FindNextFace_zero (q : QuartetState) (h0 : q.RngState = 0) :
    FindNextFace q = some { q with
      RngState := rngAdvance 1 (rngAdvance 1 1)
      NextFaceState := rolledFace (rngAdvance 1 1) } := by
  unfold FindNextFace
  rw [AdvanceRng_zero q 1 h0 (by omega)]
  simp only []
  have hne := rngAdvance_ne_zero 1 1 (by decide) (by decide)
  have hlt := rngAdvance_lt 1 1 (by decide)
  generalize rngAdvance 1 1 = s1 at hne hlt ⊢
  rw [AdvanceRng_eq _ 1 hne hlt (by omega)]
  rfl

theorem initialNode_of_roll (seed s : Nat) (hs0 : s ≠ 0) (hs1 : s < 65536)
    (first : Nat) (hf1 : first >>> 4 < 256) (hf2 : 1 <<< (first &&& 0xF) < 256)
    (h : FindNextFace { zeroState with RngState := byteswap seed, TimerSpeed := 0x40 } =
      some { zeroState with RngState := s, NextFaceState := first, TimerSpeed := 0x40 }) :
    initialNode seed = some
      { zeroState with
        RngState := rngAdvance (5 + 10) s
        FaceType := first >>> 4
        FaceProgress := 1 <<< (first &&& 0xF)
        NextFaceState := first
        TimerSpeed := 0x40 } := by
  unfold initialNode
  simp only []
  rw [h]
  simp only []
  rw [AdvanceRng_eq _ _ hs0 hs1 (by omega)]
  simp only [Nat.mod_eq_of_lt hf1, Nat.mod_eq_of_lt hf2]

theorem initialNode_zero : initialNode 0 = initialNode 256 := by
  have hf1 : ∀ x, rolledFace x >>> 4 < 256 := fun x =>
    Nat.lt_of_le_of_lt (rolledFace_type_le x) (by norm_num)
  have hf2 : ∀ x, 1 <<< (rolledFace x &&& 0xF) < 256 := fun x =>
    Nat.lt_of_le_of_lt (corner_bit_le _ (rolledFace_corner_le x)) (by norm_num)
  have e1 : byteswap 256 = 1 := by decide
  have hne := rngAdvance_ne_zero 1 1 (by decide) (by decide)
  have hlt := rngAdvance_lt 1 1 (by decide)
  have ha := initialNode_of_roll 0 (rngAdvance 1 (rngAdvance 1 1))
    (rngAdvance_ne_zero 1 _ hne hlt) (rngAdvance_lt 1 _ hlt) (rolledFace (rngAdvance 1 1))
    (hf1 _) (hf2 _) (FindNextFace_zero _ (by decide))
  have hb := initialNode_of_roll 256 (rngAdvance 1 (rngAdvance 1 (byteswap 256)))
    (by rw [e1]; exact rngAdvance_ne_zero 1 _ hne hlt) (by rw [e1]; exact rngAdvance_lt 1 _ hlt)
    (rolledFace (rngAdvance 1 (byteswap 256))) (hf1 _) (hf2 _)
    (by
      rw [FindNextFace_eq _ (by rw [e1]; decide) (by rw [e1]; decide)]
      simp only [← rngAdvance_add])
  rw [ha, hb, e1]

theorem liveAfter_congr (a b n : Nat) (h : initialNode a = initialNode b) :
    liveAfter a n = liveAfter b n := by
  unfold liveAfter firstTurn firstTurnCandidates
  rw [h]

/-- The search from the seed 0 is the search from the seed `0x0100`: the tables read the
state 0 as the state 1. -/
theorem liveAfter_zero_seed (n : Nat) : liveAfter 0 n = liveAfter 256 n :=
  liveAfter_congr 0 256 n initialNode_zero

theorem SearchSeed_of_live (seed : Nat) (first : QuartetState) (rest : List QuartetState)
    (h : liveAfter seed 2862 = some (first :: rest)) :
    SearchSeed seed = some (some (writtenDelays first, writtenTotal first)) := by
  unfold SearchSeed
  rw [h]
  rfl

/-- C1: for every non-zero seed and every turn `n` up to 2862 (the claim is `n = 2862`), if
a schedule is valid up to turn `n` (every delay in the legal range of its turn, every rolled
face accepted on turn 0 and on the turns that are not phase-3 turns, the total never above
6884), then the live set after turn `n` is non-empty and the total delay of its first
element is at most the total delay of the schedule; at `n = 2862` that element is the one
`SearchSeed` writes. -/
theorem search_answer_is_minimum (seed n : Nat) (d : Nat → Nat) (h0 : seed ≠ 0)
    (hs : seed < 65536) (hn : n ≤ 2862) (hv : ValidSchedule seed d n) :
    ∃ first rest, liveAfter seed n = some (first :: rest) ∧
      first.TotalDelay ≤ scheduleTotal d n ∧
      (n = 2862 → SearchSeed seed = some (some (writtenDelays first, writtenTotal first))) := by
  obtain ⟨r, hr⟩ := Option.isSome_iff_exists.mp hv
  obtain ⟨bs, q, hbs, hq, hqr⟩ := liveAfter_complete seed h0 hs n hn d r hr
  have hsorted := liveAfter_sorted seed n bs hbs
  have htot : q.TotalDelay = scheduleTotal d n := by
    rw [((sameBranch_iff q r).mp hqr).2.2.2.2]
    exact (replay_some seed d h0 hs n r hn hr).2.1
  cases bs with
  | nil => cases hq
  | cons first rest =>
    refine ⟨first, rest, hbs, ?_, ?_⟩
    · rw [← htot]
      rcases List.mem_cons.mp hq with rfl | hmem
      · exact Nat.le_refl _
      · exact (List.pairwise_cons.mp hsorted).1 q hmem
    · intro hn2
      subst hn2
      exact SearchSeed_of_live seed first rest hbs

/-- C2: for every non-zero seed and every turn `n` in 0..2862 the search has a live set, and
replaying the delays a node of it records, through the turn rules on one path and with no
deduplication, passes every check of every turn and gives the node itself, so its generator
state, face type, face progress, next-face state and total delay in particular. -/
theorem surviving_paths_are_viable (seed n : Nat) (h0 : seed ≠ 0) (hs : seed < 65536)
    (hn : n ≤ 2862) :
    ∃ bs, liveAfter seed n = some bs ∧
      ∀ q ∈ bs, replay seed (recordedDelays q) n = some q := by
  obtain ⟨bs, hbs, hall⟩ := liveAfter_sound seed h0 hs n hn
  refine ⟨bs, hbs, ?_⟩
  intro q hq
  obtain ⟨d, hd⟩ := hall q hq
  exact replay_recorded seed d h0 hs n q hn hd

/-- C9: for every 16-bit seed and every turn `n` in 0..2862 the search has a live set, and
for every node of it `TotalDelay` is `TurnDelay0` plus the sum of `TurnDelays[1..n]`, every
slot after `n` is 0, the written delays sum to `TotalDelay`, and so does their 16-bit sum
as the driver accumulates it. -/
theorem total_delay_is_sum_of_delays (seed n : Nat) (hs : seed < 65536) (hn : n ≤ 2862) :
    ∃ bs, liveAfter seed n = some bs ∧ ∀ q ∈ bs,
      q.TotalDelay =
        q.TurnDelay0 + ((List.range' 1 n).map (fun k => q.TurnDelays.getD k 0)).sum ∧
      (∀ k, n < k → q.TurnDelays.getD k 0 = 0) ∧
      (writtenDelays q).sum = q.TotalDelay ∧ writtenTotal q = q.TotalDelay := by
  have key : ∀ s, s ≠ 0 → s < 65536 → ∃ bs, liveAfter s n = some bs ∧ ∀ q ∈ bs,
      q.TotalDelay =
        q.TurnDelay0 + ((List.range' 1 n).map (fun k => q.TurnDelays.getD k 0)).sum ∧
      (∀ k, n < k → q.TurnDelays.getD k 0 = 0) ∧
      (writtenDelays q).sum = q.TotalDelay ∧ writtenTotal q = q.TotalDelay := by
    intro s hs0 hs1
    obtain ⟨bs, hbs, hall⟩ := liveAfter_sound s hs0 hs1 n hn
    refine ⟨bs, hbs, ?_⟩
    intro q hq
    obtain ⟨d, hd⟩ := hall q hq
    exact node_totals s d hs0 hs1 n q hn hd
  by_cases h0 : seed = 0
  · rw [h0, liveAfter_zero_seed]
    exact key 256 (by decide) (by decide)
  · exact key seed h0 hs

theorem sampleSchedule_valid : ValidSchedule 1 sampleSchedule 1 := by
  have h0 : replay 1 sampleSchedule 0 = some (firstTurnUpdate (firstCandidate 1 7)) := by
    decide!
  have hb : GetTimerDelay (firstTurnUpdate (firstCandidate 1 7)) = some 78 := by
    show arrayRead 0x40 TimerDelayTable = some 78
    rw [TimerDelayTable_eq]
    rfl
  unfold ValidSchedule
  show (replay 1 sampleSchedule (0 + 1)).isSome = true
  rw [replay_succ, h0]
  simp only []
  rw [replayTurn_of_kept (0 + 1) _ 78 _ hb (by decide) (by decide!)]
  rfl

/-- The hypotheses of `search_answer_is_minimum` hold for the seed 1 at turn 1, with the
schedule of first-turn delay 7 and delay 0 on turn 1. -/
theorem search_answer_is_minimum_witness :
    (1 ≠ 0 ∧ 1 < 65536 ∧ 1 ≤ 2862 ∧ ValidSchedule 1 sampleSchedule 1) ∧
    ∃ first rest, liveAfter 1 1 = some (first :: rest) ∧
      first.TotalDelay ≤ scheduleTotal sampleSchedule 1 ∧
      (1 = 2862 → SearchSeed 1 = some (some (writtenDelays first, writtenTotal first))) :=
  ⟨⟨by decide, by decide, by decide, sampleSchedule_valid⟩,
    search_answer_is_minimum 1 1 sampleSchedule (by decide) (by decide) (by decide)
      sampleSchedule_valid⟩

/-- The hypotheses of `surviving_paths_are_viable` hold for the seed 1 at turn 1. -/
theorem surviving_paths_are_viable_witness :
    (1 ≠ 0 ∧ 1 < 65536 ∧ 1 ≤ 2862) ∧
    ∃ bs, liveAfter 1 1 = some bs ∧ ∀ q ∈ bs, replay 1 (recordedDelays q) 1 = some q :=
  ⟨by decide, surviving_paths_are_viable 1 1 (by decide) (by decide) (by decide)⟩

/-- The hypotheses of `total_delay_is_sum_of_delays` hold for the seed 1 at turn 1. -/
theorem total_delay_is_sum_of_delays_witness :
    (1 < 65536 ∧ 1 ≤ 2862) ∧
    ∃ bs, liveAfter 1 1 = some bs ∧ ∀ q ∈ bs,
      q.TotalDelay =
        q.TurnDelay0 + ((List.range' 1 1).map (fun k => q.TurnDelays.getD k 0)).sum ∧
      (∀ k, 1 < k → q.TurnDelays.getD k 0 = 0) ∧
      (writtenDelays q).sum = q.TotalDelay ∧ writtenTotal q = q.TotalDelay :=
  ⟨by decide, total_delay_is_sum_of_delays 1 1 (by decide) (by decide)⟩

/-! ## Invariants of the live set, for every seed -/

/-- For every 16-bit seed the search has a live set after every turn, and its nodes are
nodes of schedules from a non-zero seed: the seed itself, or `0x0100` for the seed 0. -/
theorem liveAfter_replayed (seed n : Nat) (hs : seed < 65536) (hn : n ≤ 2862) :
    ∃ s bs, s ≠ 0 ∧ s < 65536 ∧ liveAfter seed n = some bs ∧
      ∀ q ∈ bs, ∃ d, replay s d n = some q := by
  by_cases h0 : seed = 0
  · obtain ⟨bs, hbs, hall⟩ := liveAfter_sound 256 (by decide) (by decide) n hn
    refine ⟨256, bs, by decide, by decide, ?_, hall⟩
    rw [h0, liveAfter_zero_seed]
    exact hbs
  · obtain ⟨bs, hbs, hall⟩ := liveAfter_sound seed h0 hs n hn
    exact ⟨seed, bs, h0, hs, hbs, hall⟩

theorem liveAfter_nodeOK (seed n : Nat) (hs : seed < 65536) (hn : n ≤ 2862) :
    ∃ bs, liveAfter seed n = some bs ∧ ∀ q ∈ bs, NodeOK n q := by
  obtain ⟨s, bs, hs0, hs1, hbs, hall⟩ := liveAfter_replayed seed n hs hn
  refine ⟨bs, hbs, ?_⟩
  intro q hq
  obtain ⟨d, hd⟩ := hall q hq
  exact (replay_some s d hs0 hs1 n q hn hd).1

theorem speedAfter_no_wrap (k : Nat) (hk : (k + 1) % 4 = 0) : 6 ≤ speedAfter k := by
  have := (speedAfter_bounds k).2.1
  omega

theorem TimerDelayTable_length : TimerDelayTable.length = 0x81 := by
  rw [TimerDelayTable_eq]
  rfl

/-- C11: for every 16-bit seed and every turn `i` in 0..2862 the search has a live set and
every node of it has `TimerSpeed = v(i)`, with `v` as the claim defines it; every `v(k)` is
even and lies in `[0x40, 0x80]`, `v(k) ≥ 6` before a turn that subtracts 6, and the
`GetTimerDelay` lookup of every live node indexes inside the `0x81`-entry table. -/
theorem timer_speed_is_valid (seed i : Nat) (hs : seed < 65536) (hi : i ≤ 2862) :
    ∃ bs, liveAfter seed i = some bs ∧
      (∀ q ∈ bs, q.TimerSpeed = speedAfter i ∧ q.TimerSpeed < TimerDelayTable.length ∧
        ∃ budget, GetTimerDelay q = some budget) ∧
      (∀ k, speedAfter k % 2 = 0 ∧ 0x40 ≤ speedAfter k ∧ speedAfter k ≤ 0x80) ∧
      (∀ k, (k + 1) % 4 = 0 → 6 ≤ speedAfter k) := by
  obtain ⟨bs, hbs, hall⟩ := liveAfter_nodeOK seed i hs hi
  refine ⟨bs, hbs, ?_, ?_, speedAfter_no_wrap⟩
  · intro q hq
    have hts := (hall q hq).2.2.1
    obtain ⟨budget, hb, _⟩ := speedAfter_budget i
    refine ⟨hts, ?_, budget, ?_⟩
    · rw [hts, TimerDelayTable_length]
      have := (speedAfter_bounds i).2.2
      omega
    · unfold GetTimerDelay
      rw [hts]
      exact hb
  · intro k
    obtain ⟨h1, h2, h3⟩ := speedAfter_bounds k
    exact ⟨h1, by omega, h3⟩

/-- The hypotheses of `timer_speed_is_valid` hold for the seed 1 at turn 1. -/
theorem timer_speed_is_valid_witness :
    (1 < 65536 ∧ 1 ≤ 2862) ∧
    ∃ bs, liveAfter 1 1 = some bs ∧
      (∀ q ∈ bs, q.TimerSpeed = speedAfter 1 ∧ q.TimerSpeed < TimerDelayTable.length ∧
        ∃ budget, GetTimerDelay q = some budget) ∧
      (∀ k, speedAfter k % 2 = 0 ∧ 0x40 ≤ speedAfter k ∧ speedAfter k ≤ 0x80) ∧
      (∀ k, (k + 1) % 4 = 0 → 6 ≤ speedAfter k) :=
  ⟨by decide, timer_speed_is_valid 1 1 (by decide) (by decide)⟩

/-! ## The recorded delays -/

theorem recorded_delay_bounds (s : Nat) (d : Nat → Nat) (h0 : s ≠ 0) (hs : s < 65536)
    (n : Nat) (q : QuartetState) (hn : n ≤ 2862) (h : replay s d n = some q) :
    q.TurnDelay0 ≤ 260 ∧ ∀ k, q.TurnDelays.getD k 0 ≤ 78 := by
  obtain ⟨_, _, h3, h4, h5, h6⟩ := replay_some s d h0 hs n q hn h
  refine ⟨by rw [h3]; exact h5, ?_⟩
  intro k
  rw [h4 k]
  split
  · rename_i hk
    exact h6 k hk.1 hk.2
  · omega

/-- C13, as the code has it: for every 16-bit seed and every turn `n` in 0..2862 the search
has a live set, and in every node of it the first-turn delay lies in `[0, 260]` and each
per-turn delay `TurnDelays[1..2862]` lies in `[0, 255]`. -/
theorem schedule_values_in_range (seed n : Nat) (hs : seed < 65536) (hn : n ≤ 2862) :
    ∃ bs, liveAfter seed n = some bs ∧ ∀ q ∈ bs,
      q.TurnDelay0 ≤ 260 ∧ ∀ k, 1 ≤ k → k ≤ 2862 → q.TurnDelays.getD k 0 ≤ 255 := by
  obtain ⟨s, bs, hs0, hs1, hbs, hall⟩ := liveAfter_replayed seed n hs hn
  refine ⟨bs, hbs, ?_⟩
  intro q hq
  obtain ⟨d, hd⟩ := hall q hq
  obtain ⟨h1, h2⟩ := recorded_delay_bounds s d hs0 hs1 n q hn hd
  exact ⟨h1, fun k _ _ => Nat.le_trans (h2 k) (by norm_num)⟩

/-- The hypotheses of `schedule_values_in_range` hold for the seed 1 at turn 1. -/
theorem schedule_values_in_range_witness :
    (1 < 65536 ∧ 1 ≤ 2862) ∧
    ∃ bs, liveAfter 1 1 = some bs ∧ ∀ q ∈ bs,
      q.TurnDelay0 ≤ 260 ∧ ∀ k, 1 ≤ k → k ≤ 2862 → q.TurnDelays.getD k 0 ≤ 255 :=
  ⟨by decide, schedule_values_in_range 1 1 (by decide) (by decide)⟩

theorem first_delay_survives (seed d0 : Nat) (h0 : seed ≠ 0) (hs : seed < 65536)
    (hv : (replayFirst seed d0).isSome = true) :
    ∃ bs q, liveAfter seed 0 = some bs ∧ q ∈ bs ∧ q.TurnDelay0 = d0 := by
  obtain ⟨r, hr⟩ := Option.isSome_iff_exists.mp hv
  have hr2 : replay seed (fun _ => d0) 0 = some r := hr
  obtain ⟨bs, q, hbs, hq, hqr⟩ := liveAfter_complete seed h0 hs 0 (by omega) _ r hr2
  obtain ⟨bs2, hbs2, hall⟩ := liveAfter_sound seed h0 hs 0 (by omega)
  rw [hbs] at hbs2
  cases hbs2
  obtain ⟨e, he⟩ := hall q hq
  obtain ⟨_, q2, q3, _⟩ := replay_some seed e h0 hs 0 q (by omega) he
  obtain ⟨_, r2, _⟩ := replay_some seed (fun _ => d0) h0 hs 0 r (by omega) hr2
  refine ⟨bs, q, hbs, hq, ?_⟩
  rw [q3, ← scheduleTotal_zero e, ← q2, ((sameBranch_iff q r).mp hqr).2.2.2.2, r2,
    scheduleTotal_zero]

/-- C13 fails as stated: for the seed 1 the first-turn delay 257 passes turn 0, so the live
set after turn 0 holds a node whose first-turn delay is above 255. -/
theorem first_delay_above_255 :
    ∃ bs q, liveAfter 1 0 = some bs ∧ q ∈ bs ∧ 255 < q.TurnDelay0 := by
  obtain ⟨bs, q, hbs, hq, h⟩ := first_delay_survives 1 257 (by decide) (by decide) (by decide!)
  exact ⟨bs, q, hbs, hq, by rw [h]; decide⟩

/-! ## The face fields -/

theorem fresh_corner_count : ∀ fp, fp < 16 → ∀ k, k < 4 → (1 <<< k) &&& fp = 0 →
    (fp ||| (1 <<< k)) % 256 < 16 ∧ bitCount ((fp ||| (1 <<< k)) % 256) = bitCount fp + 1 := by
  decide!

theorem single_corner_count : ∀ k, k < 4 → 1 <<< k < 16 ∧ bitCount (1 <<< k) = 1 := by
  decide!

theorem replayTurn_shape (i d : Nat) (p r : QuartetState) (h : replayTurn i d p = some r) :
    r = postTurn i (candidate i p d) ∧ childKept i (candidate i p d) := by
  unfold replayTurn at h
  cases hb : GetTimerDelay p with
  | none => rw [hb] at h; cases h
  | some budget =>
    rw [hb] at h
    simp only [] at h
    split at h
    · rename_i hc
      cases h
      exact ⟨rfl, hc.2⟩
    · cases h

/-- The face fields of the node of a schedule after turn `n`. -/
theorem replay_face (seed : Nat) (d : Nat → Nat) : ∀ (n : Nat) (r : QuartetState),
    replay seed d n = some r →
    r.FaceType ≤ 3 ∧ r.FaceProgress < 16 ∧ bitCount r.FaceProgress = (n + 1) % 4 + 1 := by
  intro n
  induction n with
  | zero =>
    intro r h
    have h2 : replayFirst seed (d 0) = some r := h
    unfold replayFirst at h2
    split at h2
    · rename_i hc
      cases h2
      have hk1 : rolledFace (rngAdvance 1 (byteswap seed)) &&& 0xF < 4 :=
        Nat.lt_succ_of_le (rolledFace_corner_le _)
      have hk2 : (firstCandidate seed (d 0)).NextFaceState &&& 0xF < 4 :=
        Nat.lt_succ_of_le (rolledFace_corner_le _)
      obtain ⟨a1, a2⟩ := single_corner_count _ hk1
      have hfresh := hc.2.2.2
      obtain ⟨b1, b2⟩ := fresh_corner_count (firstCandidate seed (d 0)).FaceProgress a1 _ hk2
        hfresh
      refine ⟨rolledFace_type_le _, b1, ?_⟩
      show bitCount (((firstCandidate seed (d 0)).FaceProgress |||
        (1 <<< ((firstCandidate seed (d 0)).NextFaceState &&& 0xF))) % 256) = _
      rw [b2]
      show bitCount (1 <<< (rolledFace (rngAdvance 1 (byteswap seed)) &&& 0xF)) + 1 = _
      rw [a2]
    · cases h2
  | succ n ih =>
    intro r h
    rw [replay_succ] at h
    cases hp : replay seed d n with
    | none => rw [hp] at h; cases h
    | some p =>
      rw [hp] at h
      simp only [] at h
      obtain ⟨i1, i2, i3⟩ := ih p hp
      obtain ⟨rfl, hk⟩ := replayTurn_shape (n + 1) (d (n + 1)) p r h
      obtain ⟨f1, f2⟩ := postTurn_face_eq (n + 1) (candidate (n + 1) p (d (n + 1)))
      have hkc : (candidate (n + 1) p (d (n + 1))).NextFaceState &&& 0xF < 4 :=
        Nat.lt_succ_of_le (rolledFace_corner_le _)
      have hty : ((candidate (n + 1) p (d (n + 1))).NextFaceState >>> 4) % 256 ≤ 3 :=
        Nat.le_trans (Nat.mod_le _ _) (rolledFace_type_le _)
      have hm : (n + 1) % 4 < 4 := Nat.mod_lt _ (by norm_num)
      rw [f1, f2]
      by_cases h3 : (n + 1) % 4 = 3
      · rw [if_pos h3, if_pos h3]
        obtain ⟨b1, b2⟩ := fresh_corner_count 0 (by norm_num) _ hkc (by simp)
        refine ⟨hty, b1, ?_⟩
        rw [b2]
        have e0 : bitCount 0 = 0 := by decide
        rw [e0]
        omega
      · rw [if_neg h3, if_neg h3]
        have hacc : faceAccepted (candidate (n + 1) p (d (n + 1))) := by
          rcases hk.2 with h | h
          · exact absurd h h3
          · exact h
        obtain ⟨b1, b2⟩ := fresh_corner_count (candidate (n + 1) p (d (n + 1))).FaceProgress
          i2 _ hkc hacc.2
        refine ⟨i1, b1, ?_⟩
        rw [b2]
        show bitCount p.FaceProgress + 1 = _
        rw [i3]
        omega

/-- C19: for every 16-bit seed and every turn `i` in 0..2862 the search has a live set, and
in every node of it, after the bookkeeping of the turn, `FaceType` is at most 3 and
`FaceProgress` lies in the low four bits with exactly `((i + 1) mod 4) + 1` bits set. -/
theorem face_fields_after_turn (seed i : Nat) (hs : seed < 65536) (hi : i ≤ 2862) :
    ∃ bs, liveAfter seed i = some bs ∧ ∀ q ∈ bs,
      q.FaceType ≤ 3 ∧ q.FaceProgress < 16 ∧ bitCount q.FaceProgress = (i + 1) % 4 + 1 := by
  obtain ⟨s, bs, _, _, hbs, hall⟩ := liveAfter_replayed seed i hs hi
  refine ⟨bs, hbs, ?_⟩
  intro q hq
  obtain ⟨d, hd⟩ := hall q hq
  exact replay_face s d i q hd

/-- The hypotheses of `face_fields_after_turn` hold for the seed 1 at turn 1. -/
theorem face_fields_after_turn_witness :
    (1 < 65536 ∧ 1 ≤ 2862) ∧
    ∃ bs, liveAfter 1 1 = some bs ∧ ∀ q ∈ bs,
      q.FaceType ≤ 3 ∧ q.FaceProgress < 16 ∧ bitCount q.FaceProgress = (1 + 1) % 4 + 1 :=
  ⟨by decide, face_fields_after_turn 1 1 (by decide) (by decide)⟩

/-! ## The expansion loop ends -/

theorem expandLoop_short (i : Nat) (sel : Bool) (L : Nat) (b0 : QuartetState)
    (h0 : b0.RngState ≠ 0) (hs : b0.RngState < 65536) (hL : L ≤ 254) :
    ∀ (n j fuel : Nat) (pending : List QuartetState), j + n = L + 1 → fuel ≤ n →
    expandLoop i sel L fuel j { b0 with RngState := rngAdvance j b0.RngState } pending =
      none := by
  intro n
  induction n with
  | zero =>
    intro j fuel pending _ hf
    obtain rfl : fuel = 0 := by omega
    rfl
  | succ n ih =>
    intro j fuel pending hj hf
    cases fuel with
    | zero => rfl
    | succ f =>
      rw [expandLoop, if_pos (by omega)]
      simp only []
      rw [FindNextFace_eq _ (rngAdvance_ne_zero j _ h0 hs) (rngAdvance_lt j _ hs)]
      simp only []
      rw [AdvanceRng_eq _ 1 (rngAdvance_ne_zero j _ h0 hs) (rngAdvance_lt j _ hs) (by omega)]
      simp only [← rngAdvance_add]
      have e : (j + 1) % 256 = j + 1 := Nat.mod_eq_of_lt (by omega)
      rw [e, Nat.add_comm 1 j]
      exact ih (j + 1) f _ (by omega) (by omega)

theorem expansion_of_parent (k : Nat) (p : QuartetState) (hp : NodeOK k p)
    (pending : List QuartetState) :
    ∃ b L out, turnSetup (k + 1) p = some (b, L) ∧ 37 ≤ L ∧ L ≤ 78 ∧
      expandLoop (k + 1) (decide ((k + 1) &&& 3 = 3)) L (L + 2) 0 b pending = some out ∧
      expandLoop (k + 1) (decide ((k + 1) &&& 3 = 3)) L (L + 1) 0 b pending = none ∧
      expandBranch (k + 1) p pending = some out := by
  obtain ⟨h0, hs, hts, _, _, _, _⟩ := hp
  obtain ⟨budget, hb, hb1, hb2⟩ := speedAfter_budget k
  rw [← hts] at hb
  have hsetup := turnSetup_eq (k + 1) p budget h0 hs hb
  have hb0 := rngAdvance_ne_zero (phaseTicks (k + 1)) _ h0 hs
  have hb1' := rngAdvance_lt (phaseTicks (k + 1)) _ hs
  have hL1 : 37 ≤ (if (k + 1) % 4 = 1 then budget else (budget + 255) % 256) := by
    split <;> omega
  have hL2 : (if (k + 1) % 4 = 1 then budget else (budget + 255) % 256) ≤ 78 := by
    split <;> omega
  generalize (if (k + 1) % 4 = 1 then budget else (budget + 255) % 256) = L at hsetup hL1 hL2
  have hlong := expandLoop_eq (k + 1) (decide ((k + 1) &&& 3 = 3)) L
    { p with RngState := rngAdvance (phaseTicks (k + 1)) p.RngState } hb0 hb1' (by omega)
  have hshort := expandLoop_short (k + 1) (decide ((k + 1) &&& 3 = 3)) L
    { p with RngState := rngAdvance (phaseTicks (k + 1)) p.RngState } hb0 hb1' (by omega)
    (L + 1) 0 (L + 1) pending (by omega) (Nat.le_refl _)
  have h2 := hlong (L + 1) 0 (L + 2) pending (by omega) (by omega)
  have h257 := hlong (L + 1) 0 257 pending (by omega) (by omega)
  simp only [rngAdvance_zero] at hshort h2 h257
  refine ⟨_, L, _, hsetup, hL1, hL2, h2, hshort, ?_⟩
  unfold expandBranch
  rw [hsetup]
  exact h257

/-- C20: for every 16-bit seed, every turn `k + 1` in 1..2862 and every live parent (a node
of the live set after turn `k`), the 8-bit `delayLimit` of the turn lies in `[37, 78]`, and
the loop over `j` ends: it ends within `delayLimit + 2` tests of its condition and not
within `delayLimit + 1`, so its body runs exactly `delayLimit + 1` times. -/
theorem expansion_loop_terminates (seed k : Nat) (hs : seed < 65536) (hk : k + 1 ≤ 2862) :
    ∃ ps, liveAfter seed k = some ps ∧ ∀ p ∈ ps, ∀ pending,
      ∃ b L out, turnSetup (k + 1) p = some (b, L) ∧ 37 ≤ L ∧ L ≤ 78 ∧
        expandLoop (k + 1) (decide ((k + 1) &&& 3 = 3)) L (L + 2) 0 b pending = some out ∧
        expandLoop (k + 1) (decide ((k + 1) &&& 3 = 3)) L (L + 1) 0 b pending = none ∧
        expandBranch (k + 1) p pending = some out := by
  obtain ⟨ps, hps, hall⟩ := liveAfter_nodeOK seed k hs (by omega)
  exact ⟨ps, hps, fun p hp pending => expansion_of_parent k p (hall p hp) pending⟩

/-- The hypotheses of `expansion_loop_terminates` hold for the seed 1 at turn 1. -/
theorem expansion_loop_terminates_witness :
    (1 < 65536 ∧ 0 + 1 ≤ 2862) ∧
    ∃ ps, liveAfter 1 0 = some ps ∧ ∀ p ∈ ps, ∀ pending,
      ∃ b L out, turnSetup (0 + 1) p = some (b, L) ∧ 37 ≤ L ∧ L ≤ 78 ∧
        expandLoop (0 + 1) (decide ((0 + 1) &&& 3 = 3)) L (L + 2) 0 b pending = some out ∧
        expandLoop (0 + 1) (decide ((0 + 1) &&& 3 = 3)) L (L + 1) 0 b pending = none ∧
        expandBranch (0 + 1) p pending = some out :=
  ⟨by decide, expansion_loop_terminates 1 0 (by decide) (by decide)⟩

/-! ## The candidates of turn 0 -/

theorem firstTurnPending_congr (a b : Nat) (h : initialNode a = initialNode b) :
    firstTurnPending a = firstTurnPending b := by
  unfold firstTurnPending firstTurnCandidates
  rw [h]

theorem firstTurnPending_eq (seed : Nat) (h0 : seed ≠ 0) (hs : seed < 65536) :
    firstTurnPending seed = some ((List.range 261).map (firstCandidate seed)) := by
  obtain ⟨hb0, hb1⟩ := byteswap_ok seed h0 hs
  unfold firstTurnPending
  exact firstTurnCandidates_rolled seed hb0 hb1

theorem firstTurn_delays (seed : Nat) (hs : seed < 65536) :
    FirstTurnDelays (List.range 261) seed := by
  have key : ∀ s, s ≠ 0 → s < 65536 → FirstTurnDelays (List.range 261) s := by
    intro s hs0 hs1
    refine ⟨_, firstTurnPending_eq s hs0 hs1, ?_, ?_⟩
    · rw [List.map_map]
      exact List.map_id _
    · rw [List.map_map]
      exact List.map_id _
  by_cases h0 : seed = 0
  · obtain ⟨pending, h1, h2, h3⟩ := key 256 (by decide) (by decide)
    refine ⟨pending, ?_, h2, h3⟩
    rw [h0, firstTurnPending_congr 0 256 initialNode_zero]
    exact h1
  · exact key seed h0 hs

theorem firstTurn_delays_not_from_one (seed : Nat) (hs : seed < 65536) :
    ¬ FirstTurnDelays (List.range' 1 260) seed := by
  rintro ⟨pending, h1, h2, _⟩
  obtain ⟨pending2, g1, g2, _⟩ := firstTurn_delays seed hs
  rw [h1] at g1
  cases g1
  rw [h2] at g2
  have := congrArg List.length g2
  rw [List.length_range', List.length_range] at this
  omega

/-- C12, as the code has it: for every 16-bit seed the candidate set of turn 0 before the
cull holds, in this order, exactly one candidate for each first-turn delay `d` in 0..260
and no other candidate, and the candidate of `d` has `TurnDelay0 = TotalDelay = d`; the
candidate of delay 0 is the node pushed before the loop of lines 243-249. -/
theorem first_turn_enumerates_0_to_260 (seed : Nat) (hs : seed < 65536) :
    FirstTurnDelays (List.range 261) seed ∧
      ∃ pending first rest, firstTurnPending seed = some pending ∧ pending = first :: rest ∧
        first.TurnDelay0 = 0 ∧ first.TotalDelay = 0 ∧ pending.length = 261 := by
  refine ⟨firstTurn_delays seed hs, ?_⟩
  obtain ⟨pending, h1, h2, h3⟩ := firstTurn_delays seed hs
  have hlen : pending.length = 261 := by
    have := congrArg List.length h2
    rw [List.length_map, List.length_range] at this
    exact this
  cases pending with
  | nil => simp at hlen
  | cons first rest =>
    refine ⟨_, first, rest, h1, rfl, ?_, ?_, hlen⟩
    · have := congrArg List.head? h2
      rw [List.range_succ_eq_map] at this
      simpa using this
    · have := congrArg List.head? h3
      rw [List.range_succ_eq_map] at this
      simpa using this

/-- The hypothesis of `first_turn_enumerates_0_to_260` holds for the seed 1. -/
theorem first_turn_enumerates_0_to_260_witness :
    1 < 65536 ∧ (FirstTurnDelays (List.range 261) 1 ∧
      ∃ pending first rest, firstTurnPending 1 = some pending ∧ pending = first :: rest ∧
        first.TurnDelay0 = 0 ∧ first.TotalDelay = 0 ∧ pending.length = 261) :=
  ⟨by decide, first_turn_enumerates_0_to_260 1 (by decide)⟩

/-- C12 fails as stated: for the seed 1 the candidate set of turn 0 is not one candidate
for each first-turn delay in 1..260; it has 261 candidates, the first of delay 0. -/
theorem first_turn_not_1_to_260 : ¬ FirstTurnDelays (List.range' 1 260) 1 :=
  firstTurn_delays_not_from_one 1 (by decide)

/-! ## `AdvanceRng` on large iteration counts -/

theorem AdvanceRng_of_index_none (q : QuartetState) (iterations idx : Nat)
    (h : advanceIndex q.RngState iterations = some idx) (hidx : 65535 ≤ idx) :
    AdvanceRng q iterations = none := by
  unfold AdvanceRng
  rw [h]
  simp only []
  rw [RngTable_read_none idx hidx]

theorem wrapIndex_overrun (x : Nat) (h1 : 131070 ≤ x) (h2 : x < 4294967296) :
    ∃ idx, (if x % 4294967296 ≥ 0xFFFF then x % 4294967296 - 0xFFFF else x % 4294967296) = idx ∧
      65535 ≤ idx ∧ idx + 65535 = x := by
  have e : x % 4294967296 = x := Nat.mod_eq_of_lt h2
  obtain ⟨y, hy⟩ : ∃ y, x = y + 65535 := ⟨x - 65535, by omega⟩
  refine ⟨y, ?_, by omega, by omega⟩
  rw [e, if_pos (by omega)]
  omega

theorem AdvanceRng_overrun (q : QuartetState) (iterations m : Nat)
    (hread : arrayRead q.RngState ReverseRngTable = some m) (h1 : 131070 ≤ m + iterations)
    (h2 : m + iterations < 4294967296) :
    ∃ idx, advanceIndex q.RngState iterations = some idx ∧ idx + 65535 = m + iterations ∧
      AdvanceRng q iterations = none := by
  have h := advanceIndex_of_read q.RngState iterations m hread
  obtain ⟨idx, e1, e2, e3⟩ := wrapIndex_overrun (m + iterations) h1 h2
  rw [e1] at h
  exact ⟨idx, h, e3, AdvanceRng_of_index_none q iterations idx h e2⟩

theorem advanceIndex_in_range (q : QuartetState) (iterations : Nat) (h0 : q.RngState ≠ 0)
    (hs : q.RngState < 65536) (hi : iterations ≤ 65535) :
    ∃ idx, advanceIndex q.RngState iterations = some idx ∧ idx < 65535 := by
  obtain ⟨m, hm, hq⟩ := orbit_surj q.RngState h0 hs
  have h := advanceIndex_of_read q.RngState iterations m
    (by rw [← hq]; exact ReverseRngTable_read m hm)
  obtain ⟨idx, e1, e2, _⟩ := wrapIndex_spec (m + iterations) (by omega)
  rw [e1] at h
  exact ⟨idx, h, e2⟩

/-- C15, as the code has it: for every non-zero 16-bit state and every iteration count `k`
of at most 65535 (so for `k` in 1..65535), `AdvanceRng` reads inside both tables and returns
the state obtained by applying the one-step transformation exactly `k` times. -/
theorem AdvanceRng_total_up_to_period (q : QuartetState) (k : Nat) (h0 : q.RngState ≠ 0)
    (hs : q.RngState < 65536) (hk : k ≤ 65535) :
    q.RngState < ReverseRngTable.length ∧
    (∃ idx, advanceIndex q.RngState k = some idx ∧ idx < RngTable.length) ∧
    AdvanceRng q k = some { q with RngState := rngStep^[k] q.RngState } := by
  refine ⟨by rw [ReverseRngTable_length]; exact hs, ?_, AdvanceRng_eq q k h0 hs hk⟩
  obtain ⟨idx, h1, h2⟩ := advanceIndex_in_range q k h0 hs hk
  exact ⟨idx, h1, by rw [RngTable_length]; exact h2⟩

/-- The hypotheses of `AdvanceRng_total_up_to_period` hold at the state 1 for 65535
iterations. -/
theorem AdvanceRng_total_up_to_period_witness :
    (oneState.RngState ≠ 0 ∧ oneState.RngState < 65536 ∧ 65535 ≤ 65535) ∧
    (oneState.RngState < ReverseRngTable.length ∧
    (∃ idx, advanceIndex oneState.RngState 65535 = some idx ∧ idx < RngTable.length) ∧
    AdvanceRng oneState 65535 = some { oneState with RngState := rngStep^[65535] oneState.RngState }) :=
  ⟨by decide, AdvanceRng_total_up_to_period oneState 65535 (by decide) (by decide)
    (by decide)⟩

/-- C15 fails as stated: from the state 1, whose index is 0, 131070 iterations give the
index 65535 after the one subtraction of `0xFFFF`, and the read of the 65535-entry
`RngTable` is outside the table. -/
theorem AdvanceRng_reads_outside :
    ∃ idx, advanceIndex oneState.RngState 131070 = some idx ∧ idx + 65535 = 0 + 131070 ∧
      AdvanceRng oneState 131070 = none :=
  AdvanceRng_overrun oneState 131070 0 (ReverseRngTable_read 0 (by decide)) (by decide)
    (by decide)

/-! ## The timer-delay table in closed form -/

/-- C17: for every even timer speed `s` in `[0x40, 0x80]` the table entry is
`⌈5120 / s⌉ - 2`; it lies between 38 and 78, and is 78 at `0x40` and 38 at `0x80`. -/
theorem TimerDelayTable_closed_form (s : Nat) (h1 : 0x40 ≤ s) (h2 : s ≤ 0x80)
    (h3 : s % 2 = 0) :
    arrayRead s TimerDelayTable = some ((5120 + s - 1) / s - 2) ∧
    38 ≤ (5120 + s - 1) / s - 2 ∧ (5120 + s - 1) / s - 2 ≤ 78 ∧
    arrayRead 0x40 TimerDelayTable = some 78 ∧ arrayRead 0x80 TimerDelayTable = some 38 := by
  have hr := TimerDelayTable_read_all s (by omega)
  rw [if_pos ⟨h1, h3⟩] at hr
  have hb := timerBudget_bounds s h1 h2
  have e : (5120 + s - 1) / s - 2 = 5119 / s - 1 := by
    have e1 : 5120 + s - 1 = 5119 + s := by omega
    rw [e1, Nat.add_div_right _ (by omega)]
    rfl
  refine ⟨hr, by rw [e]; exact hb.1, by rw [e]; exact hb.2, ?_, ?_⟩
  · rw [TimerDelayTable_eq]; rfl
  · rw [TimerDelayTable_eq]; rfl

/-- The hypotheses of `TimerDelayTable_closed_form` hold at the speed `0x42`. -/
theorem TimerDelayTable_closed_form_witness :
    (0x40 ≤ 0x42 ∧ 0x42 ≤ 0x80 ∧ 0x42 % 2 = 0) ∧
    (arrayRead 0x42 TimerDelayTable = some ((5120 + 0x42 - 1) / 0x42 - 2) ∧
    38 ≤ (5120 + 0x42 - 1) / 0x42 - 2 ∧ (5120 + 0x42 - 1) / 0x42 - 2 ≤ 78 ∧
    arrayRead 0x40 TimerDelayTable = some 78 ∧ arrayRead 0x80 TimerDelayTable = some 38) :=
  ⟨by decide, TimerDelayTable_closed_form 0x42 (by decide) (by decide) (by decide)⟩

/-! ## Merge and deduplication keep every search state -/

theorem sameBranch_iff_key (a b : QuartetState) :
    sameBranch a b = true ↔ branchKey a = branchKey b := by
  rw [sameBranch_iff]
  unfold branchKey
  simp only [Prod.mk.injEq]

theorem orderedInsert_filter_total (T : Nat) (a : QuartetState) :
    ∀ (l : List QuartetState),
    (List.orderedInsert (fun x y => CompareBranches y x = false) a l).filter
        (fun q => decide (q.TotalDelay = T)) =
      if a.TotalDelay = T then a :: l.filter (fun q => decide (q.TotalDelay = T))
      else l.filter (fun q => decide (q.TotalDelay = T)) := by
  intro l
  induction l with
  | nil =>
    by_cases h : a.TotalDelay = T <;> simp [h]
  | cons b l ih =>
    by_cases hr : CompareBranches b a = false
    · simp only [List.orderedInsert, if_pos hr]
      by_cases h : a.TotalDelay = T <;> simp [h]
    · have hlt : b.TotalDelay < a.TotalDelay := by
        simpa [CompareBranches] using hr
      simp only [List.orderedInsert, if_neg hr, List.filter_cons, ih]
      by_cases h : a.TotalDelay = T
      · have hb : ¬ b.TotalDelay = T := by omega
        simp [h, hb]
      · simp [h]

/-- The sort is stable: the nodes of one total delay keep their order. -/
theorem listSort_stable (T : Nat) : ∀ (l : List QuartetState),
    (listSort CompareBranches l).filter (fun q => decide (q.TotalDelay = T)) =
      l.filter (fun q => decide (q.TotalDelay = T)) := by
  intro l
  induction l with
  | nil => rfl
  | cons a l ih =>
    unfold listSort at ih ⊢
    rw [List.insertionSort, orderedInsert_filter_total, ih, List.filter_cons]
    by_cases h : a.TotalDelay = T
    · rw [if_pos h, if_pos (by simpa using h)]
    · rw [if_neg h, if_neg (by simpa using h)]

theorem listUniqueFrom_runs (pred : QuartetState → QuartetState → Bool) :
    ∀ (rest : List QuartetState) (kept : QuartetState),
    ∃ (t : List QuartetState) (runs : List (QuartetState × List QuartetState)),
      rest = t ++ runs.flatMap (fun r => r.1 :: r.2) ∧
      listUniqueFrom pred kept rest = kept :: runs.map (fun r => r.1) ∧
      (∀ x ∈ t, pred kept x = true) ∧
      (∀ r ∈ runs, ∀ x ∈ r.2, pred r.1 x = true) ∧
      List.Chain (fun a b => pred a.1 b.1 = false) (kept, t) runs := by
  intro rest
  induction rest with
  | nil =>
    intro kept
    exact ⟨[], [], rfl, rfl, fun x hx => absurd hx (List.not_mem_nil x),
      fun r hr => absurd hr (List.not_mem_nil r), List.Chain.nil⟩
  | cons next rest ih =>
    intro kept
    rw [listUniqueFrom]
    by_cases hp : pred kept next = true
    · rw [if_pos hp]
      obtain ⟨t, runs, h1, h2, h3, h4, h5⟩ := ih kept
      refine ⟨next :: t, runs, by simp [h1], h2, ?_, h4, ?_⟩
      · intro x hx
        rcases List.mem_cons.mp hx with rfl | hx2
        · exact hp
        · exact h3 x hx2
      · exact @List.Chain.imp' _ _ _ (fun _ _ h => h) (kept, t) (kept, next :: t)
          (fun _ h => h) _ h5
    · rw [if_neg hp]
      obtain ⟨t, runs, h1, h2, h3, h4, h5⟩ := ih next
      refine ⟨[], (next, t) :: runs, ?_, by rw [h2]; rfl,
        fun x hx => absurd hx (List.not_mem_nil x), ?_, ?_⟩
      · simp [h1]
      · intro r hr x hx
        rcases List.mem_cons.mp hr with rfl | hr2
        · exact h3 x hx
        · exact h4 r hr2 x hx
      · exact List.Chain.cons (by simpa using hp) h5

theorem listUnique_runs (pred : QuartetState → QuartetState → Bool) (l : List QuartetState) :
    ∃ runs : List (QuartetState × List QuartetState),
      l = runs.flatMap (fun r => r.1 :: r.2) ∧
      listUnique pred l = runs.map (fun r => r.1) ∧
      (∀ r ∈ runs, ∀ x ∈ r.2, pred r.1 x = true) ∧
      List.Chain' (fun a b => pred a.1 b.1 = false) runs := by
  cases l with
  | nil =>
    exact ⟨[], rfl, rfl, fun r hr => absurd hr (List.not_mem_nil r), List.chain'_nil⟩
  | cons first rest =>
    obtain ⟨t, runs, h1, h2, h3, h4, h5⟩ := listUniqueFrom_runs pred rest first
    refine ⟨(first, t) :: runs, ?_, h2, ?_, h5⟩
    · simp [h1]
    · intro r hr x hx
      rcases List.mem_cons.mp hr with rfl | hr2
      · exact h3 x hx
      · exact h4 r hr2 x hx

/-- C18: for every list of newly produced nodes, the keys occurring after `MergeBranches`
and `RemoveDuplicates` are the keys occurring in the input; the sort keeps the nodes of one
total delay in their order of generation; and the sorted list splits into runs of adjacent
nodes, each run a kept node followed by the nodes of its key that were erased, with the
kept nodes of neighbouring runs of different keys, so every kept node is the first, and so
the earliest generated, of its run. -/
theorem merge_dedup_loses_no_state (pending : List QuartetState) :
    (∀ key, (∃ q, q ∈ RemoveDuplicates (MergeBranches [] pending) ∧ branchKey q = key) ↔
      (∃ q, q ∈ pending ∧ branchKey q = key)) ∧
    (∀ T, (MergeBranches [] pending).filter (fun q => decide (q.TotalDelay = T)) =
      pending.filter (fun q => decide (q.TotalDelay = T))) ∧
    ∃ runs : List (QuartetState × List QuartetState),
      MergeBranches [] pending = runs.flatMap (fun r => r.1 :: r.2) ∧
      RemoveDuplicates (MergeBranches [] pending) = runs.map (fun r => r.1) ∧
      (∀ r ∈ runs, ∀ x ∈ r.2, branchKey x = branchKey r.1) ∧
      List.Chain' (fun a b => branchKey a.1 ≠ branchKey b.1) runs := by
  refine ⟨?_, ?_, ?_⟩
  · intro key
    constructor
    · rintro ⟨q, hq, hk⟩
      exact ⟨q, (mem_live_merge pending q).mp (mem_RemoveDuplicates _ q hq), hk⟩
    · rintro ⟨q, hq, hk⟩
      obtain ⟨m, hm, hmq⟩ := RemoveDuplicates_represents _ q ((mem_live_merge pending q).mpr hq)
      exact ⟨m, hm, by rw [(sameBranch_iff_key m q).mp hmq]; exact hk⟩
  · intro T
    rw [MergeBranches_nil]
    exact listSort_stable T pending
  · obtain ⟨runs, h1, h2, h3, h4⟩ := listUnique_runs sameBranch (MergeBranches [] pending)
    refine ⟨runs, h1, h2, ?_, ?_⟩
    · intro r hr x hx
      exact ((sameBranch_iff_key r.1 x).mp (h3 r hr x hx)).symm
    · refine List.Chain'.imp ?_ h4
      intro a b hab hkey
      rw [(sameBranch_iff_key a.1 b.1).mpr hkey] at hab
      cases hab

/-! ## The scheduler -/

/-- C14 fails on the code: with two workers and an input of the one seed `0x1234`, the
priming loop reads the end of the input as the seed 0 and launches `SearchSeed` with it,
where the claim has the launches end with the input, `[0x1234]`. -/
theorem main_launches_seed_zero :
    mainLaunches 2 [0x1234] = some [0x1234, 0] ∧
      [0x1234].takeWhile (fun seed => decide (seed ≠ 0)) = [0x1234] := by
  decide

/-! ## The expander on the live parents -/

theorem candidate_of_parent (k : Nat) (p : QuartetState) (hp : NodeOK k p) (j : Nat)
    (hj : j ≤ 255) :
    candidate (k + 1) p j =
      { p with
        RngState := rngStep^[phaseTicks (k + 1) + j + 2] p.RngState
        NextFaceState := ((rngStep^[phaseTicks (k + 1) + j + 1] p.RngState >>> 8) % 256) &&& 0x33
        TurnDelays := p.TurnDelays.set (k + 1) j
        TotalDelay := p.TotalDelay + j } ∧
    ((k + 1 ≤ 2862) → (candidate (k + 1) p j).TurnDelays.getD (k + 1) 0 = j) := by
  obtain ⟨_, _, _, htot, _, _, hlen⟩ := hp
  have e : (p.TotalDelay + j) % 4294967296 = p.TotalDelay + j :=
    Nat.mod_eq_of_lt (by omega)
  refine ⟨?_, ?_⟩
  · unfold candidate rngAdvance rolledFace
    rw [e]
  · intro hk
    show (p.TurnDelays.set (k + 1) j).getD (k + 1) 0 = j
    rw [List.getD_eq_getElem?_getD, List.getElem?_set_self (by omega)]
    rfl

theorem expander_of_parent (k : Nat) (p : QuartetState) (hp : NodeOK k p) :
    ExpanderSpec (k + 1) p ∧ ∃ budget, GetTimerDelay p = some budget ∧ 38 ≤ budget ∧
      budget ≤ 78 := by
  obtain ⟨h0, hs, hts, _, _, _, _⟩ := hp
  obtain ⟨budget, hb, hb1, hb2⟩ := speedAfter_budget k
  rw [← hts] at hb
  exact ⟨⟨budget, hb, expandBranch_eq (k + 1) p budget h0 hs hb (fun _ => by omega)⟩,
    budget, hb, hb1, hb2⟩

/-- C8: for every 16-bit seed, every turn `k + 1` in 1..2862 and every parent `p` the
search holds for that turn (a node of the live set after turn `k`), `p` has a non-zero
generator state and a delay budget between 38 and 78, the expander handles exactly the
delays `j = 0..L` in ascending order, `L` being the budget when the turn is 1 mod 4 and the
budget minus 1 otherwise, and the candidate of `j` is `p` with `TurnDelays[k + 1] = j`,
`TotalDelay = p.TotalDelay + j`, `NextFaceState` the high byte of the state `T + j + 1`
steps on masked with `0x33`, and the generator state `T + j + 2` steps on; every other
field is that of `p`. -/
theorem expander_delays_and_candidates (seed k : Nat) (hs : seed < 65536)
    (hk : k + 1 ≤ 2862) :
    ∃ ps, liveAfter seed k = some ps ∧ ∀ p ∈ ps,
      p.RngState ≠ 0 ∧ ExpanderSpec (k + 1) p ∧
      (∃ budget, GetTimerDelay p = some budget ∧ 38 ≤ budget ∧ budget ≤ 78) ∧
      ∀ j, j ≤ 255 →
        candidate (k + 1) p j =
          { p with
            RngState := rngStep^[phaseTicks (k + 1) + j + 2] p.RngState
            NextFaceState :=
              ((rngStep^[phaseTicks (k + 1) + j + 1] p.RngState >>> 8) % 256) &&& 0x33
            TurnDelays := p.TurnDelays.set (k + 1) j
            TotalDelay := p.TotalDelay + j } ∧
        (candidate (k + 1) p j).TurnDelays.getD (k + 1) 0 = j := by
  obtain ⟨ps, hps, hall⟩ := liveAfter_nodeOK seed k hs (by omega)
  refine ⟨ps, hps, ?_⟩
  intro p hp
  obtain ⟨h1, h2⟩ := expander_of_parent k p (hall p hp)
  refine ⟨(hall p hp).1, h1, h2, ?_⟩
  intro j hj
  obtain ⟨c1, c2⟩ := candidate_of_parent k p (hall p hp) j hj
  exact ⟨c1, c2 hk⟩

/-- The hypotheses of `expander_delays_and_candidates` hold for the seed 1 at turn 1. -/
theorem expander_delays_and_candidates_witness :
    (1 < 65536 ∧ 0 + 1 ≤ 2862) ∧
    ∃ ps, liveAfter 1 0 = some ps ∧ ∀ p ∈ ps,
      p.RngState ≠ 0 ∧ ExpanderSpec (0 + 1) p ∧
      (∃ budget, GetTimerDelay p = some budget ∧ 38 ≤ budget ∧ budget ≤ 78) ∧
      ∀ j, j ≤ 255 →
        candidate (0 + 1) p j =
          { p with
            RngState := rngStep^[phaseTicks (0 + 1) + j + 2] p.RngState
            NextFaceState :=
              ((rngStep^[phaseTicks (0 + 1) + j + 1] p.RngState >>> 8) % 256) &&& 0x33
            TurnDelays := p.TurnDelays.set (0 + 1) j
            TotalDelay := p.TotalDelay + j } ∧
        (candidate (0 + 1) p j).TurnDelays.getD (0 + 1) 0 = j :=
  ⟨by decide, expander_delays_and_candidates 1 0 (by decide) (by decide)⟩

end Quartet
